import Mathlib

/-!
Verification development for the git-tm commit-graph viewer.

The definitions below are a shallow embedding of the core subsystems:

* the incremental lane-assignment loop of `Commits.initialize`
  (src/browser/commits.ts),
* the windowed virtualization (`Scrollable`, src/browser/scrollable.ts):
  the `visibleRange$` computation, the range-diff rebinding loop and the
  `items$.reaction` rebinding loop,
* the page-fetch deduplication of `Git.touch` (src/browser/git.ts).

JavaScript sparse arrays are modelled as `List (Option _)` (a hole reads
as `none`); JS string truthiness (`if (parent)`) is `truthy`; `x || null`
is `jsOrNull`.
-/

namespace GitTm

/-- `STEP` from src/base.ts: page size of commit fetches. -/
def STEP : Nat := 50

/-! ## Lane assignment engine (src/browser/commits.ts) -/

/-- A commit as consumed by the lane loop: its hash and parent hashes. -/
structure Commit where
  hash : String
  parents : List String
deriving Repr, DecidableEq

/-- The per-row `Track` record of commits.ts (field `incomming` keeps the
source spelling; `visible` is the 0 | 1 | 2 tri-state). -/
structure Track where
  visible : Nat
  depth : Nat
  incomming : List Nat
  outgoing : List Nat
  active : Bool
deriving Repr, DecidableEq

/-- JS truthiness of a `string | null` value: non-null and non-empty. -/
def truthy (o : Option String) : Bool :=
  match o with
  | none => false
  | some s => !s.isEmpty

/-- Models the JS expression `x || null` on a `string | undefined` value. -/
def jsOrNull (o : Option String) : Option String :=
  if truthy o then o else none

/-- JS sparse-array write `a[i] = v`: in-place update when `i` is within
bounds, else the array grows to length `i + 1` and the holes created in
between read back as `none`. -/
def sparseSet {α : Type} : List (Option α) → Nat → Option α → List (Option α)
  | [], 0, v => [v]
  | [], i + 1, v => none :: sparseSet [] i v
  | _ :: xs, 0, v => v :: xs
  | x :: xs, i + 1, v => x :: sparseSet xs i v

/-- Write a `Track` into the sparse tracks row (`tracks[i] = t`). -/
def setTrackAt (l : List (Option Track)) (i : Nat) (t : Track) : List (Option Track) :=
  sparseSet l i (some t)

/-- Write into the lane vector (`nextTracks[i] = v`). -/
def setStrAt (l : List (Option String)) (i : Nat) (v : Option String) : List (Option String) :=
  sparseSet l i v

/-- `merged.incomming.push(j)` where `merged` lives at index `m` of the
sparse tracks array. -/
def pushIncomming (l : List (Option Track)) (m j : Nat) : List (Option Track) :=
  match l.get? m with
  | some (some t) => l.set m (some { t with incomming := t.incomming ++ [j] })
  | _ => l

/-- `merged.outgoing.push(x)` where `merged` lives at index `m`. -/
def pushOutgoing (l : List (Option Track)) (m x : Nat) : List (Option Track) :=
  match l.get? m with
  | some (some t) => l.set m (some { t with outgoing := t.outgoing ++ [x] })
  | _ => l

/-- Mutable state of the per-commit body of the lane loop: the sparse
`tracks` row being built, the `nextTracks` lane vector, the index of the
`merged` track (if any), the parent cursor `k` and the
`firstTrackInvisible` flag. -/
structure RowState where
  tracks : List (Option Track)
  nextTracks : List (Option String)
  mergedIdx : Option Nat
  k : Nat
  fti : Bool
deriving Repr, DecidableEq

/-- One iteration of the `for (let j = 0; ...)` loop over `currentTracks`
in `Commits.initialize`; `j` is the current length of `nextTracks`
(every branch extends `nextTracks` by exactly one slot). -/
def forStep (hash : String) (parents : List String) (s : RowState)
    (parent : Option String) : RowState :=
  let j := s.nextTracks.length
  if truthy parent then
    if parent = some hash then
      match s.mergedIdx with
      | none =>
        let out := jsOrNull (parents.get? s.k)
        if j = 0 ∧ s.fti then
          { tracks := setTrackAt s.tracks j
              ⟨1, j, [j], if truthy out then [j] else [], true⟩,
            nextTracks := s.nextTracks ++ [out],
            mergedIdx := some j, k := s.k + 1, fti := false }
        else
          { tracks := setTrackAt s.tracks j
              ⟨if s.fti then 0 else 2, j, [j], if truthy out then [j] else [], true⟩,
            nextTracks := s.nextTracks ++ [out],
            mergedIdx := some j, k := s.k + 1, fti := s.fti }
      | some m =>
        { s with nextTracks := s.nextTracks ++ [none],
                 tracks := pushIncomming s.tracks m j }
    else
      { s with
          nextTracks := s.nextTracks ++ [parent],
          tracks := setTrackAt s.tracks j
            ⟨if j = 0 ∧ s.fti then 0 else 2, j, [j], [j], false⟩ }
  else
    { s with nextTracks := s.nextTracks ++ [none] }

/-- The whole `for` loop: fold `forStep` over the current lane vector. -/
def runFor (hash : String) (parents : List String) :
    List (Option String) → RowState → RowState
  | [], s => s
  | p :: rest, s => runFor hash parents rest (forStep hash parents s p)

/-- First free (null) slot of the lane vector, else its length: models
`let index = nextTracks.indexOf(null); if (index < 0) index = nextTracks.length`. -/
def freeIdx (l : List (Option String)) : Nat :=
  (l.findIdx? (· = (none : Option String))).getD l.length

/-- The `while (commit.parents[k])` loop allocating lanes for the
remaining parents; `fuel` bounds the iteration count (the loop advances
`k` every round, so `parents.length + 1` rounds always suffice). -/
def runWhile (parents : List String) (currentTracks : List (Option String)) :
    Nat → RowState → RowState
  | 0, s => s
  | fuel + 1, s =>
    match parents.get? s.k with
    | none => s
    | some p =>
      if p.isEmpty then s
      else
        match currentTracks.findIdx? (· = some p) with
        | some exist =>
          runWhile parents currentTracks fuel
            { s with
                tracks := match s.mergedIdx with
                  | some m => pushOutgoing s.tracks m exist
                  | none => s.tracks,
                nextTracks := setStrAt s.nextTracks exist (some p),
                k := s.k + 1 }
        | none =>
          let index := freeIdx s.nextTracks
          match s.mergedIdx with
          | some m =>
            runWhile parents currentTracks fuel
              { s with tracks := pushOutgoing s.tracks m index,
                       nextTracks := setStrAt s.nextTracks index (some p),
                       k := s.k + 1 }
          | none =>
            runWhile parents currentTracks fuel
              { s with tracks := setTrackAt s.tracks index ⟨2, index, [], [index], true⟩,
                       nextTracks := setStrAt s.nextTracks index (some p),
                       mergedIdx := some index,
                       k := s.k + 1 }

/-- Engine state carried between commits: the `firstTrackInvisible` flag
and the `currentTracks` lane vector. -/
structure LaneState where
  fti : Bool
  currentTracks : List (Option String)
deriving Repr, DecidableEq

/-- `currentTracks = [this.head?.commit || null]` with the flag set. -/
def initialLaneState (head : Option String) : LaneState :=
  ⟨true, [jsOrNull head]⟩

/-- The whole per-commit body: `for` loop then `while` loop, producing
the row's sparse track array and the next engine state. -/
def stepCommit (st : LaneState) (c : Commit) : List (Option Track) × LaneState :=
  let s0 : RowState := ⟨[], [], none, 0, st.fti⟩
  let s1 := runFor c.hash c.parents st.currentTracks s0
  let s2 := runWhile c.parents st.currentTracks (c.parents.length + 1) s1
  (s2.tracks, ⟨s2.fti, s2.nextTracks⟩)

/-- Process a list of commits in row order, collecting each row's tracks. -/
def runCommits : LaneState → List Commit → List (List (Option Track)) × LaneState
  | st, [] => ([], st)
  | st, c :: cs =>
    let r := stepCommit st c
    let rest := runCommits r.2 cs
    (r.1 :: rest.1, rest.2)

/-! ## The lane loop's row cursor (`for (; commits[i]; i++)`) -/

/-- One subscriber call of the lane loop: starting at row `i`, process
rows while the commit-store slot holds a real commit; stop at the first
placeholder (`none`) or past the end. Returns the new cursor and the
processed row indices in order. `fuel` bounds iterations. -/
def advanceLoop (commits : List (Option Commit)) : Nat → Nat → Nat × List Nat
  | 0, i => (i, [])
  | fuel + 1, i =>
    match commits.get? i with
    | some (some _) =>
      let r := advanceLoop commits fuel (i + 1)
      (r.1, i :: r.2)
    | _ => (i, [])

/-- A subscriber call with sufficient fuel. -/
def advanceRows (commits : List (Option Commit)) (i : Nat) : Nat × List Nat :=
  advanceLoop commits (commits.length + 1) i

/-- Fold successive snapshots of the commit store through the cursor. -/
def advanceAll : Nat → List (List (Option Commit)) → Nat × List Nat
  | i, [] => (i, [])
  | i, c :: cs =>
    let r := advanceRows c i
    let rest := advanceAll r.1 cs
    (rest.1, r.2 ++ rest.2)

/-- Whether a commit-store slot holds a real commit (not a placeholder). -/
def isReal (commits : List (Option Commit)) (i : Nat) : Bool :=
  match commits.get? i with
  | some (some _) => true
  | _ => false

/-! ## Windowed renderer (src/browser/scrollable.ts) -/

/-- The `visibleRange$` record; `stop` models the source's `end` field
(`end` is a Lean keyword). -/
structure VRange where
  start : Int
  stop : Int
deriving Repr, DecidableEq

/-- The `compute` body of `visibleRange$`: scroll offset, container
height and item height are exact rationals (idealized DOM pixels),
`itemsCount` is the backing list length. -/
def visibleRange (scrollTop containerHeight itemHeight : ℚ) (itemsCount : ℕ) : VRange :=
  ⟨max 0 ⌊scrollTop / itemHeight⌋,
   min (itemsCount : ℤ) ⌈(scrollTop + containerHeight) / itemHeight⌉⟩

/-- Modelled from the spec's derived-value formula, for comparison with
the code's `visibleRange`: `{ start: max(0, floor(scrollOffset / itemHeight)),
end: min(itemCount, ceil((scrollOffset + containerHeight) / itemHeight)) }`. -/
def visibleRangeSpec (scrollOffset containerHeight itemHeight : ℚ) (itemCount : ℕ) : VRange :=
  ⟨max 0 ⌊scrollOffset / itemHeight⌋,
   min (itemCount : ℤ) ⌈(scrollOffset + containerHeight) / itemHeight⌉⟩

/-- A half-open index interval over rows, as used by the rebinding loops
(both loop bounds are non-negative row indices). -/
structure NRange where
  start : Nat
  stop : Nat
deriving Repr, DecidableEq

/-- The indices a `for (let i = start; i < end; i++)` loop visits. -/
def rangeIndices (r : NRange) : List Nat := List.range' r.start (r.stop - r.start)

/-- A binding record `children[i] = { data, dom }`; the pooled DOM node
plays no part in deciding which indices are re-bound, so only `data` is
kept. -/
structure BoundRow (Item : Type) where
  data : Item
deriving Repr, DecidableEq

/-- Slot `i` of the sparse `children` array. -/
def childAt {Item : Type} (children : List (Option (BoundRow Item))) (i : Nat) :
    Option (BoundRow Item) :=
  (children.get? i).getD none

/-- The indices at which the `items$.reaction` handler invokes
`renderItem`: every index of the visible range whose `children` slot is
bound.  The handler reads `items[i]` only to pass it on; it never
compares it with the bound `data`. -/
def reactionInvoked {Item : Type} (_items : List Item) (r : NRange)
    (children : List (Option (BoundRow Item))) : List Nat :=
  (rangeIndices r).filter (fun i => (childAt children i).isSome)

/-- Modelled from the spec: the mutation-path rebinding the claim
describes, re-invoking the Row Presenter only at visible bound indices
whose backing item changed. -/
def reactionInvokedClaimed {Item : Type} [DecidableEq Item] (items : List Item) (r : NRange)
    (children : List (Option (BoundRow Item))) : List Nat :=
  (rangeIndices r).filter (fun i =>
    match childAt children i with
    | some e => if items.get? i = some e.data then false else true
    | none => false)

/-- The `added` set of the `visibleRange$.subscribe` handler: indices of
the new range outside the old one, plus indices of the old range still
inside the new one. -/
def addedIndices (last cur : NRange) : List Nat :=
  (rangeIndices cur).filter (fun i => i < last.start || last.stop ≤ i) ++
    (rangeIndices last).filter (fun i => cur.start ≤ i && i < cur.stop)

/-- The `removed` set: indices of the old range outside the new one. -/
def removedIndices (last cur : NRange) : List Nat :=
  (rangeIndices last).filter (fun i => i < cur.start || cur.stop ≤ i)

/-- The indices at which the range-change handler invokes `renderItem`:
each `added` index except those whose bound item is unchanged
(`if (e?.data === item) continue`). -/
def rangeInvoked {Item : Type} [DecidableEq Item] (items : List Item) (last cur : NRange)
    (children : List (Option (BoundRow Item))) : List Nat :=
  (addedIndices last cur).filter (fun i =>
    match childAt children i with
    | some e => if items.get? i = some e.data then false else true
    | none => true)

/-! ## Page-fetch deduplication (`Git.touch`, src/browser/git.ts) -/

/-- One `touch(end)` call: `max = Math.ceil(end / STEP)`; issue fetches
for the page groups from `_touching` to `max` and advance `_touching`
past them (`(endIdx + STEP - 1) / STEP` is `Math.ceil(end / STEP)` on
naturals).  Returns the new `_touching` and the groups fetched by this
call. -/
def touchGroups (touching : Nat) (endIdx : Nat) : Nat × List Nat :=
  if touching ≤ (endIdx + STEP - 1) / STEP then
    ((endIdx + STEP - 1) / STEP + 1,
     List.range' touching ((endIdx + STEP - 1) / STEP + 1 - touching))
  else (touching, [])

/-- Fold a sequence of `touch` calls, collecting every group fetched. -/
def touchAll : Nat → List Nat → Nat × List Nat
  | t, [] => (t, [])
  | t, e :: es =>
    let r := touchGroups t e
    let rest := touchAll r.1 es
    (rest.1, r.2 ++ rest.2)

/-! ## Invariant predicates for the lane-assignment loop -/

/-- The pass-through Track created for lane `j` when the row commit does
not match it; `fti0` is the `firstTrackInvisible` flag at row entry. -/
def ptTrack (fti0 : Bool) (j : Nat) : Track :=
  ⟨if j = 0 ∧ fti0 then 0 else 2, j, [j], [j], false⟩

/-- No lane of `l` expects `hash`: the row commit matches nothing. -/
def matchesNone (hash : String) (l : List (Option String)) : Prop :=
  ∀ p ∈ l, ¬(truthy p = true ∧ p = some hash)

/-- `mergedIdx` bookkeeping: when unset no produced track is active;
when set, the track at `mergedIdx` is the unique active track. -/
def TracksOk (tracks : List (Option Track)) (mi : Option Nat) : Prop :=
  match mi with
  | none => ∀ j t, tracks.get? j = some (some t) → t.active = false
  | some m =>
    (∃ t, tracks.get? m = some (some t) ∧ t.active = true) ∧
      ∀ j t, tracks.get? j = some (some t) → j ≠ m → t.active = false

/-- Every open lane the commit does not match gets a pass-through track
and keeps its expected identifier in the next lane vector. -/
def PassOk (hash : String) (fti0 : Bool) (current : List (Option String))
    (tracks : List (Option Track)) (next : List (Option String)) : Prop :=
  ∀ j p, current.get? j = some p → truthy p = true → p ≠ some hash →
    tracks.get? j = some (some (ptTrack fti0 j)) ∧ next.get? j = some p

/-- Every `outgoing` index of a produced track points at an open
(non-null, non-empty) slot of the next lane vector. -/
def OutOk (tracks : List (Option Track)) (next : List (Option String)) : Prop :=
  ∀ j t, tracks.get? j = some (some t) → ∀ x ∈ t.outgoing,
    ∃ v : String, next.get? x = some (some v) ∧ v.isEmpty = false

/-- Every open lane the commit matches is recorded in the `incomming`
set of the (active) merged track. -/
def InOk (hash : String) (current : List (Option String))
    (tracks : List (Option Track)) : Prop :=
  ∀ j, current.get? j = some (some hash) → hash.isEmpty = false →
    ∃ j' t, tracks.get? j' = some (some t) ∧ j ∈ t.incomming ∧ t.active = true

/-- Invariant of the `for` loop after processing the prefix `done` of
the current lane vector. -/
structure ForInv (hash : String) (fti0 : Bool) (done : List (Option String))
    (s : RowState) : Prop where
  len_next : s.nextTracks.length = done.length
  len_tracks : s.tracks.length ≤ done.length
  ok : TracksOk s.tracks s.mergedIdx
  pass : PassOk hash fti0 done s.tracks s.nextTracks
  outs : OutOk s.tracks s.nextTracks
  ins : InOk hash done s.tracks
  fti_init : done = [] → s.fti = fti0

/-- Invariant of the `while` loop (and of the finished row). -/
structure WInv (hash : String) (fti0 : Bool) (current : List (Option String))
    (s : RowState) : Prop where
  ok : TracksOk s.tracks s.mergedIdx
  pass : PassOk hash fti0 current s.tracks s.nextTracks
  outs : OutOk s.tracks s.nextTracks
  ins : InOk hash current s.tracks

/-! ## Helper lemmas about the sparse-array primitives -/

theorem sparseSet_get?_self {α : Type} :
    ∀ (l : List (Option α)) (i : Nat) (v : Option α),
      (sparseSet l i v).get? i = some v := by
  intro l
  induction l with
  | nil =>
    intro i v
    induction i with
    | zero => rfl
    | succ n ih => simpa [sparseSet] using ih
  | cons x xs ih =>
    intro i v
    cases i with
    | zero => rfl
    | succ n => simpa [sparseSet] using ih n v

theorem sparseSet_get?_ne {α : Type} :
    ∀ (l : List (Option α)) (i : Nat) (v : Option α) (j : Nat), j ≠ i →
      (sparseSet l i v).get? j = l.get? j ∨ (sparseSet l i v).get? j = some none ∨
        (sparseSet l i v).get? j = none := by
  intro l
  induction l with
  | nil =>
    intro i v j hne
    right
    induction i generalizing j with
    | zero =>
      cases j with
      | zero => exact absurd rfl hne
      | succ m => right; rfl
    | succ n ih =>
      cases j with
      | zero => left; rfl
      | succ m => simpa [sparseSet] using ih m (by omega)
  | cons x xs ih =>
    intro i v j hne
    cases i with
    | zero =>
      cases j with
      | zero => exact absurd rfl hne
      | succ m => left; rfl
    | succ n =>
      cases j with
      | zero => left; rfl
      | succ m => simpa [sparseSet] using ih n v m (by omega)

theorem sparseSet_get?_ne_of_some {α : Type} :
    ∀ (l : List (Option α)) (i : Nat) (v : Option α) (j : Nat) (w : Option α), j ≠ i →
      l.get? j = some w → (sparseSet l i v).get? j = some w := by
  intro l
  induction l with
  | nil => intro i v j w _ hw; simp at hw
  | cons x xs ih =>
    intro i v j w hne hw
    cases i with
    | zero =>
      cases j with
      | zero => exact absurd rfl hne
      | succ m => simpa [sparseSet] using hw
    | succ n =>
      cases j with
      | zero => simpa [sparseSet] using hw
      | succ m => simpa [sparseSet] using ih n v m w (by omega) (by simpa using hw)

theorem sparseSet_get?_ne_inv {α : Type} (l : List (Option α)) (i : Nat) (v : Option α)
    (j : Nat) (w : α) (hne : j ≠ i) (hw : (sparseSet l i v).get? j = some (some w)) :
    l.get? j = some (some w) := by
  rcases sparseSet_get?_ne l i v j hne with h | h | h
  · rwa [h] at hw
  · rw [h] at hw; exact absurd (Option.some.inj hw) (by simp)
  · rw [h] at hw; exact absurd hw (by simp)

theorem sparseSet_length_of_le {α : Type} :
    ∀ (l : List (Option α)) (i : Nat) (v : Option α),
      l.length ≤ i → (sparseSet l i v).length = i + 1 := by
  intro l
  induction l with
  | nil =>
    intro i v _
    induction i with
    | zero => rfl
    | succ n ih => simpa [sparseSet] using ih
  | cons x xs ih =>
    intro i v h
    cases i with
    | zero => simp at h
    | succ n => simpa [sparseSet] using ih n v (by simpa using h)

theorem pushIncomming_get?_self (l : List (Option Track)) (m j : Nat) (t : Track)
    (h : l.get? m = some (some t)) :
    (pushIncomming l m j).get? m =
      some (some { t with incomming := t.incomming ++ [j] }) := by
  unfold pushIncomming
  rw [h, List.get?_set_eq, h]
  rfl

theorem pushIncomming_get?_ne (l : List (Option Track)) (m j j' : Nat) (h : j' ≠ m) :
    (pushIncomming l m j).get? j' = l.get? j' := by
  unfold pushIncomming
  cases hm : l.get? m with
  | none => rfl
  | some o =>
    cases o with
    | none => rfl
    | some t => exact List.get?_set_ne _ _ (Ne.symm h)

theorem pushOutgoing_get?_self (l : List (Option Track)) (m x : Nat) (t : Track)
    (h : l.get? m = some (some t)) :
    (pushOutgoing l m x).get? m =
      some (some { t with outgoing := t.outgoing ++ [x] }) := by
  unfold pushOutgoing
  rw [h, List.get?_set_eq, h]
  rfl

theorem pushOutgoing_get?_ne (l : List (Option Track)) (m x j' : Nat) (h : j' ≠ m) :
    (pushOutgoing l m x).get? j' = l.get? j' := by
  unfold pushOutgoing
  cases hm : l.get? m with
  | none => rfl
  | some o =>
    cases o with
    | none => rfl
    | some t => exact List.get?_set_ne _ _ (Ne.symm h)

theorem findIdx?_some_spec {α : Type} {q : α → Bool} :
    ∀ (l : List α) (i s : Nat), List.findIdx? q l s = some i →
      ∃ a, l.get? (i - s) = some a ∧ q a = true ∧ s ≤ i := by
  intro l
  induction l with
  | nil => intro i s h; simp [List.findIdx?] at h
  | cons x xs ih =>
    intro i s h
    rw [List.findIdx?_cons] at h
    by_cases hq : q x = true
    · rw [if_pos hq] at h
      injection h with h
      subst h
      exact ⟨x, by simp, hq, le_refl _⟩
    · rw [if_neg hq] at h
      obtain ⟨a, ha, hqa, hs⟩ := ih i (s + 1) h
      refine ⟨a, ?_, hqa, by omega⟩
      have hd : i - s = (i - (s + 1)) + 1 := by omega
      rw [hd]
      simpa using ha

theorem findIdx?_some_get {α : Type} {q : α → Bool} {l : List α} {i : Nat}
    (h : l.findIdx? q = some i) : ∃ a, l.get? i = some a ∧ q a = true := by
  obtain ⟨a, ha, hq, _⟩ := findIdx?_some_spec l i 0 h
  exact ⟨a, by simpa using ha, hq⟩

theorem freeIdx_spec (l : List (Option String)) :
    l.get? (freeIdx l) = some none ∨ freeIdx l = l.length := by
  unfold freeIdx
  cases h : l.findIdx? (· = (none : Option String)) with
  | none => right; rfl
  | some i =>
    left
    obtain ⟨a, ha, hq⟩ := findIdx?_some_get h
    have : a = none := by simpa using hq
    subst this
    simpa using ha

theorem freeIdx_ne_some (l : List (Option String)) (j : Nat) (v : String)
    (h : l.get? j = some (some v)) : freeIdx l ≠ j := by
  intro hj
  rcases freeIdx_spec l with h2 | h2
  · rw [hj, h] at h2
    exact absurd (Option.some.inj h2) (by simp)
  · have hlt : j < l.length := (List.get?_eq_some.1 h).1
    omega

/-! ## Properties of the row cursor -/

theorem advanceLoop_run (commits : List (Option Commit)) :
    ∀ (fuel i : Nat), ∃ n, advanceLoop commits fuel i = (i + n, List.range' i n) ∧
      ∀ j, i ≤ j → j < i + n → isReal commits j = true := by
  intro fuel
  induction fuel with
  | zero => intro i; exact ⟨0, rfl, by omega⟩
  | succ f ih =>
    intro i
    cases hc : commits.get? i with
    | some o =>
      cases o with
      | some c =>
        obtain ⟨n, heq, hreal⟩ := ih (i + 1)
        refine ⟨n + 1, ?_, ?_⟩
        · unfold advanceLoop
          rw [hc]
          simp only [heq, List.range'_succ]
          have harith : i + 1 + n = i + (n + 1) := by omega
          rw [harith]
        · intro j h1 h2
          rcases eq_or_lt_of_le h1 with rfl | hlt
          · unfold isReal; rw [hc]
          · exact hreal j (by omega) (by omega)
      | none =>
        refine ⟨0, ?_, by omega⟩
        unfold advanceLoop
        rw [hc]
        simp
    | none =>
      refine ⟨0, ?_, by omega⟩
      unfold advanceLoop
      rw [hc]
      simp

theorem advanceLoop_stop (commits : List (Option Commit)) :
    ∀ (fuel i : Nat), commits.length < fuel + i →
      isReal commits ((advanceLoop commits fuel i).1) = false := by
  intro fuel
  induction fuel with
  | zero =>
    intro i h
    unfold advanceLoop isReal
    rw [List.get?_len_le (by omega)]
  | succ f ih =>
    intro i h
    unfold advanceLoop
    cases hc : commits.get? i with
    | some o =>
      cases o with
      | some c => simpa using ih (i + 1) (by omega)
      | none =>
        show isReal commits i = false
        unfold isReal
        rw [hc]
    | none =>
      show isReal commits i = false
      unfold isReal
      rw [hc]

theorem advanceRows_run (commits : List (Option Commit)) (i : Nat) :
    ∃ n, advanceRows commits i = (i + n, List.range' i n) ∧
      (∀ j, i ≤ j → j < i + n → isReal commits j = true) ∧
      isReal commits (i + n) = false := by
  obtain ⟨n, heq, hreal⟩ := advanceLoop_run commits (commits.length + 1) i
  refine ⟨n, heq, hreal, ?_⟩
  have h2 := advanceLoop_stop commits (commits.length + 1) i (by omega)
  rw [heq] at h2
  simpa using h2

theorem advanceAll_run (snaps : List (List (Option Commit))) :
    ∀ i, ∃ n, advanceAll i snaps = (i + n, List.range' i n) := by
  induction snaps with
  | nil => intro i; exact ⟨0, rfl⟩
  | cons c cs ih =>
    intro i
    obtain ⟨n1, h1, _, _⟩ := advanceRows_run c i
    obtain ⟨n2, h2⟩ := ih (i + n1)
    refine ⟨n1 + n2, ?_⟩
    unfold advanceAll
    rw [h1]
    simp only [h2]
    have hr : List.range' i n1 ++ List.range' (i + n1) n2 = List.range' i (n1 + n2) := by
      have h3 := List.range'_append i n1 n2 1
      simp only [one_mul] at h3
      rw [h3, Nat.add_comm n2 n1]
    rw [hr]
    have harith : i + n1 + n2 = i + (n1 + n2) := by omega
    rw [harith]

/-! ## Properties of touch deduplication -/

theorem touchGroups_fst_ge (t e : Nat) : t ≤ (touchGroups t e).1 := by
  unfold touchGroups
  split <;> simp <;> omega

theorem touchGroups_issued_lt (t e : Nat) :
    ∀ g ∈ (touchGroups t e).2, g < (touchGroups t e).1 ∧ t ≤ g := by
  intro g hg
  unfold touchGroups at hg ⊢
  by_cases hc : t ≤ (e + STEP - 1) / STEP
  · rw [if_pos hc] at hg ⊢
    simp only [List.mem_range'] at hg
    obtain ⟨k, hk, rfl⟩ := hg
    simp
    omega
  · rw [if_neg hc] at hg
    simp at hg

theorem touchAll_ge (ends : List Nat) :
    ∀ t, ∀ g ∈ (touchAll t ends).2, t ≤ g := by
  induction ends with
  | nil => intro t g hg; simp [touchAll] at hg
  | cons e es ih =>
    intro t g hg
    unfold touchAll at hg
    rw [List.mem_append] at hg
    rcases hg with hg | hg
    · exact (touchGroups_issued_lt t e g hg).2
    · have h2 := ih (touchGroups t e).1 g hg
      have h3 := touchGroups_fst_ge t e
      omega

theorem touchAll_pairwise (ends : List Nat) :
    ∀ t, List.Pairwise (· < ·) (touchAll t ends).2 := by
  induction ends with
  | nil => intro t; simp [touchAll]
  | cons e es ih =>
    intro t
    unfold touchAll
    rw [List.pairwise_append]
    refine ⟨?_, ih _, ?_⟩
    · unfold touchGroups
      split
      · exact List.pairwise_lt_range' _ _
      · simp
    · intro a ha b hb
      have h1 := (touchGroups_issued_lt t e a ha).1
      have h2 := touchAll_ge es (touchGroups t e).1 b hb
      omega

/-! ## Claim theorems -/

/-- C1: seeded with `laneState = [A]`, the four-commit scenario
`A(parent:B)`, `B(parents:[C,D])`, `C`, `D` produces exactly the per-row
Track arrays and lane-state vectors of the spec's concrete walkthrough;
in particular row 1 yields Track0 `{incoming:[0], outgoing:[0,1],
active:true}` with `laneState = [C,D]`, and row 2 yields the pass-through
Track1 `{incoming:[1], outgoing:[1], active:false}` with
`laneState = [null,D]`. -/
theorem laneScenario_linear_merge :
    runCommits (initialLaneState (some "A"))
      [⟨"A", ["B"]⟩, ⟨"B", ["C", "D"]⟩, ⟨"C", []⟩, ⟨"D", []⟩] =
      ([[some ⟨1, 0, [0], [0], true⟩],
        [some ⟨2, 0, [0], [0, 1], true⟩],
        [some ⟨2, 0, [0], [], true⟩, some ⟨2, 1, [1], [1], false⟩],
        [none, some ⟨2, 1, [1], [], true⟩]],
       ⟨false, [none, none]⟩) ∧
    (runCommits (initialLaneState (some "A")) [⟨"A", ["B"]⟩, ⟨"B", ["C", "D"]⟩]).2 =
      ⟨false, [some "C", some "D"]⟩ ∧
    (runCommits (initialLaneState (some "A"))
      [⟨"A", ["B"]⟩, ⟨"B", ["C", "D"]⟩, ⟨"C", []⟩]).2 = ⟨false, [none, some "D"]⟩ := by
  refine ⟨?_, ?_, ?_⟩ <;> rfl

/-- C3: the row cursor of the lane loop processes indices in strictly
increasing, gapless order: over any sequence of commit-store snapshots
the processed indices are exactly `range' i0 n` for some `n` (each index
once, none skipped), and each individual call processes a contiguous run
of real commits starting at the cursor, halts at the first placeholder
slot, and leaves the cursor there so the next call resumes at that same
index. -/
theorem lane_cursor_inorder (snaps : List (List (Option Commit))) (i0 : Nat) :
    (∃ n, advanceAll i0 snaps = (i0 + n, List.range' i0 n)) ∧
    ∀ (commits : List (Option Commit)) (i : Nat), ∃ n,
      advanceRows commits i = (i + n, List.range' i n) ∧
      (∀ j, i ≤ j → j < i + n → isReal commits j = true) ∧
      isReal commits (i + n) = false :=
  ⟨advanceAll_run snaps i0, fun commits i => advanceRows_run commits i⟩

/-- Witness for C3 at a concrete snapshot: one real commit then a
placeholder. -/
theorem lane_cursor_inorder_witness :
    ∃ n, advanceRows [some (⟨"A", []⟩ : Commit), none] 0 = (0 + n, List.range' 0 n) ∧
      (∀ j, 0 ≤ j → j < 0 + n → isReal [some (⟨"A", []⟩ : Commit), none] j = true) ∧
      isReal [some (⟨"A", []⟩ : Commit), none] (0 + n) = false :=
  (lane_cursor_inorder [] 0).2 _ 0

/-- C4: the `visibleRange$` computation agrees with the spec's derived
formula for every input with positive item height, and at
`itemHeight = 48`, `containerHeight = 200`, `scrollOffset = 0` with at
least five items it gives `{start: 0, end: 5}`. -/
theorem visibleRange_matches_spec :
    (∀ (s c h : ℚ) (n : ℕ), 0 < h → visibleRange s c h n = visibleRangeSpec s c h n) ∧
    ∀ n : ℕ, 5 ≤ n → visibleRange 0 200 48 n = ⟨0, 5⟩ := by
  constructor
  · intro s c h n _
    rfl
  · intro n hn
    have h1 : ⌊(0 : ℚ) / 48⌋ = 0 := by norm_num
    have h2 : ⌈((0 : ℚ) + 200) / 48⌉ = 5 := by
      rw [Int.ceil_eq_iff] <;> norm_num
    unfold visibleRange
    rw [h1, h2]
    have h3 : min (n : ℤ) 5 = 5 := min_eq_right (by exact_mod_cast hn)
    rw [h3]
    norm_num

/-- Witness for C4 at `itemCount = 5`. -/
theorem visibleRange_matches_spec_witness :
    visibleRange 0 200 48 5 = ⟨0, 5⟩ ∧ visibleRange 0 200 48 5 = visibleRangeSpec 0 200 48 5 :=
  ⟨visibleRange_matches_spec.2 5 (le_refl 5),
   visibleRange_matches_spec.1 0 200 48 5 (by norm_num)⟩

/-- C5 counterexample: at `scrollOffset = 100`, `containerHeight = 0`,
`itemHeight = 1`, `itemCount = 0` — inputs allowed by the claim — the
computed range has `start = 100 > 0 = end`, so `start ≤ end` fails. -/
theorem visibleRange_bounds_fail :
    (0 : ℚ) ≤ 100 ∧ (0 : ℚ) ≤ 0 ∧ (0 : ℚ) < 1 ∧
      ¬((visibleRange 100 0 1 0).start ≤ (visibleRange 100 0 1 0).stop) := by
  refine ⟨by norm_num, le_refl 0, by norm_num, ?_⟩
  unfold visibleRange
  have h1 : ⌊(100 : ℚ) / 1⌋ = 100 := by norm_num
  have h2 : ⌈((100 : ℚ) + 0) / 1⌉ = 100 := by
    rw [Int.ceil_eq_iff] <;> norm_num
  rw [h1, h2]
  simp

/-- C5 (amended): the bounds `0 ≤ start ≤ end ≤ itemCount` hold for all
inputs whose scroll offset does not exceed the content height
`itemCount * itemHeight` (the DOM clamps `scrollTop` below the content
height, but the formula itself does not). -/
theorem visibleRange_bounds (s c h : ℚ) (n : ℕ) (hs : 0 ≤ s) (hc : 0 ≤ c)
    (hh : 0 < h) (hb : s ≤ (n : ℚ) * h) :
    0 ≤ (visibleRange s c h n).start ∧
      (visibleRange s c h n).start ≤ (visibleRange s c h n).stop ∧
      (visibleRange s c h n).stop ≤ (n : ℤ) := by
  unfold visibleRange
  refine ⟨le_max_left _ _, ?_, min_le_left _ _⟩
  apply le_min
  · apply max_le
    · exact_mod_cast Nat.zero_le n
    · have hdiv : s / h ≤ (n : ℚ) := by
        rw [div_le_iff hh]
        exact hb
      calc ⌊s / h⌋ ≤ ⌊(n : ℚ)⌋ := Int.floor_le_floor hdiv
        _ = (n : ℤ) := Int.floor_natCast n
  · apply max_le
    · exact Int.ceil_nonneg (div_nonneg (by linarith) hh.le)
    · calc ⌊s / h⌋ ≤ ⌈s / h⌉ := Int.floor_le_ceil _
        _ ≤ ⌈(s + c) / h⌉ := by
            apply Int.ceil_le_ceil
            have hmono : s / h ≤ (s + c) / h := by
              gcongr
              linarith
            exact hmono

/-- Witness for the amended C5 at the spec's example inputs. -/
theorem visibleRange_bounds_witness :
    0 ≤ (visibleRange 0 200 48 5).start ∧
      (visibleRange 0 200 48 5).start ≤ (visibleRange 0 200 48 5).stop ∧
      (visibleRange 0 200 48 5).stop ≤ (5 : ℤ) :=
  visibleRange_bounds 0 200 48 5 (by norm_num) (by norm_num) (by norm_num) (by norm_num)

/-- C6 counterexample: with one visible bound row whose backing item is
unchanged (`children[0].data = items[0] = "x"`), the `items$.reaction`
handler still invokes `renderItem` at index 0, while the claimed
behavior would invoke nothing. -/
theorem reaction_rebinds_unchanged :
    childAt [some (⟨"x"⟩ : BoundRow String)] 0 = some ⟨"x"⟩ ∧
    (["x"] : List String).get? 0 = some "x" ∧
    0 ∈ reactionInvoked ["x"] ⟨0, 1⟩ [some (⟨"x"⟩ : BoundRow String)] ∧
    reactionInvokedClaimed ["x"] ⟨0, 1⟩ [some (⟨"x"⟩ : BoundRow String)] = [] := by
  refine ⟨rfl, rfl, ?_, rfl⟩
  decide

/-- C6 (amended): on a list mutation the `items$.reaction` handler
re-invokes `renderItem` at every visible index with a bound row,
regardless of whether the backing item changed; only the range-change
handler skips an index whose bound item is unchanged (identity
equality), so idempotent rebinding holds on that path alone. -/
theorem rebind_paths :
    (∀ (Item : Type) (items : List Item) (r : NRange)
        (children : List (Option (BoundRow Item))) (i : Nat),
        i ∈ reactionInvoked items r children ↔
          i ∈ rangeIndices r ∧ (childAt children i).isSome = true) ∧
    ∀ (Item : Type) (inst : DecidableEq Item) (items : List Item) (last cur : NRange)
      (children : List (Option (BoundRow Item))) (i : Nat) (e : BoundRow Item),
      i ∈ rangeInvoked items last cur children →
        childAt children i = some e → items.get? i ≠ some e.data := by
  constructor
  · intro Item items r children i
    simp [reactionInvoked, List.mem_filter]
  · intro Item inst items last cur children i e hi he hd
    unfold rangeInvoked at hi
    rw [List.mem_filter] at hi
    have hcond := hi.2
    simp only [he] at hcond
    rw [if_pos hd] at hcond
    exact absurd hcond (by simp)

/-- Witness for the amended C6: a changed bound row really is re-bound
by the range-change handler, hence its item differs from the bound data. -/
theorem rebind_paths_witness :
    (["x", "y"] : List String).get? 0 ≠ some (BoundRow.mk "z").data :=
  rebind_paths.2 String inferInstance ["x", "y"] ⟨0, 0⟩ ⟨0, 1⟩ [some ⟨"z"⟩] 0 ⟨"z"⟩
    (by decide) (by decide)

/-- C9: over any sequence of `touch(end)` calls the fetched page groups
are strictly increasing (so each group is fetched at most once), every
fetched group is at or beyond the current `_touching` cursor (strictly
beyond every previously requested group), and a call whose page group is
already covered issues no fetch at all. -/
theorem touch_dedup (t : Nat) (ends : List Nat) :
    List.Pairwise (· < ·) (touchAll t ends).2 ∧
    (∀ g ∈ (touchAll t ends).2, t ≤ g) ∧
    (touchAll t ends).2.Nodup ∧
    ∀ t' e, (e + STEP - 1) / STEP < t' → touchGroups t' e = (t', []) := by
  refine ⟨touchAll_pairwise ends t, touchAll_ge ends t, ?_, ?_⟩
  · exact (touchAll_pairwise ends t).imp (fun h => ne_of_lt h)
  · intro t' e h
    unfold touchGroups
    rw [if_neg (by omega)]

/-- Witness for C9: `touch(75)` then `touch(60)` from the initial cursor
fetches groups 1 and 2 once; the second call's group 2 is already
covered at cursor 3. -/
theorem touch_dedup_witness :
    List.Pairwise (· < ·) (touchAll 1 [75, 60]).2 ∧
      (∀ g ∈ (touchAll 1 [75, 60]).2, 1 ≤ g) ∧
      (touchAll 1 [75, 60]).2.Nodup ∧ touchGroups 3 60 = (3, []) := by
  obtain ⟨h1, h2, h3, h4⟩ := touch_dedup 1 [75, 60]
  exact ⟨h1, h2, h3, h4 3 60 (by norm_num [STEP])⟩


/-! ## Preservation of the lane invariants -/

theorem get?_snoc_lt {α : Type} (l : List α) (x : α) (n : Nat) (h : n < l.length) :
    (l ++ [x]).get? n = l.get? n := List.get?_append h

theorem get?_snoc_len {α : Type} (l : List α) (x : α) :
    (l ++ [x]).get? l.length = some x := List.get?_concat_length l x

theorem get?_snoc_elim {α : Type} (l : List α) (x : α) (n : Nat) (q : α)
    (h : (l ++ [x]).get? n = some q) :
    (n < l.length ∧ l.get? n = some q) ∨ (n = l.length ∧ q = x) := by
  rcases Nat.lt_trichotomy n l.length with hn | hn | hn
  · exact Or.inl ⟨hn, by rwa [get?_snoc_lt _ _ _ hn] at h⟩
  · subst hn
    rw [get?_snoc_len] at h
    exact Or.inr ⟨rfl, (Option.some.inj h).symm⟩
  · exfalso
    rw [List.get?_len_le (by simp; omega)] at h
    exact absurd h (by simp)

theorem truthy_some_of (v : String) (hv : v.isEmpty = false) :
    truthy (some v) = true := by simp [truthy, hv]

theorem truthy_elim (p : Option String) (h : truthy p = true) :
    ∃ v, p = some v ∧ v.isEmpty = false := by
  cases p with
  | none => simp [truthy] at h
  | some v =>
    refine ⟨v, rfl, ?_⟩
    simpa [truthy] using h

theorem pushIncomming_length (l : List (Option Track)) (m j : Nat) :
    (pushIncomming l m j).length = l.length := by
  unfold pushIncomming
  cases l.get? m with
  | none => rfl
  | some o =>
    cases o with
    | none => rfl
    | some t => exact List.length_set _ _ _

theorem pushOutgoing_length (l : List (Option Track)) (m x : Nat) :
    (pushOutgoing l m x).length = l.length := by
  unfold pushOutgoing
  cases l.get? m with
  | none => rfl
  | some o =>
    cases o with
    | none => rfl
    | some t => exact List.length_set _ _ _

theorem setTrackAt_get?_self (l : List (Option Track)) (i : Nat) (t : Track) :
    (setTrackAt l i t).get? i = some (some t) := sparseSet_get?_self l i (some t)

theorem setTrackAt_get?_ne_of_some (l : List (Option Track)) (i : Nat) (t : Track)
    (j : Nat) (w : Option Track) (h : j ≠ i) (hw : l.get? j = some w) :
    (setTrackAt l i t).get? j = some w := sparseSet_get?_ne_of_some l i (some t) j w h hw

theorem setTrackAt_get?_ne_inv (l : List (Option Track)) (i : Nat) (t : Track)
    (j : Nat) (w : Track) (h : j ≠ i) (hw : (setTrackAt l i t).get? j = some (some w)) :
    l.get? j = some (some w) := sparseSet_get?_ne_inv l i (some t) j w h hw

theorem setStrAt_get?_self (l : List (Option String)) (i : Nat) (v : Option String) :
    (setStrAt l i v).get? i = some v := sparseSet_get?_self l i v

theorem setStrAt_get?_ne_of_some (l : List (Option String)) (i : Nat) (v : Option String)
    (j : Nat) (w : Option String) (h : j ≠ i) (hw : l.get? j = some w) :
    (setStrAt l i v).get? j = some w := sparseSet_get?_ne_of_some l i v j w h hw

/-- Null branch of the `for` loop body preserves the invariant. -/
theorem null_forinv (hash : String) (fti0 : Bool) (done : List (Option String))
    (p : Option String) (s : RowState) (hinv : ForInv hash fti0 done s)
    (ht : ¬truthy p = true) :
    ForInv hash fti0 (done ++ [p]) { s with nextTracks := s.nextTracks ++ [none] } := by
  have hlen := hinv.len_next
  refine ⟨?_, ?_, ?_, ?_, ?_, ?_, ?_⟩
  · simp [hlen]
  · have := hinv.len_tracks
    simp
    omega
  · exact hinv.ok
  · intro j' p' hg htp hnep
    rcases get?_snoc_elim done p j' p' hg with ⟨hj, hg'⟩ | ⟨hj, rfl⟩
    · obtain ⟨htr, hnx⟩ := hinv.pass j' p' hg' htp hnep
      exact ⟨htr, by rw [get?_snoc_lt _ _ _ (by omega)]; exact hnx⟩
    · exact absurd htp ht
  · intro j' t hg x hx
    obtain ⟨v, hv, hvn⟩ := hinv.outs j' t hg x hx
    have hxlt : x < s.nextTracks.length := (List.get?_eq_some.1 hv).1
    exact ⟨v, by rw [get?_snoc_lt _ _ _ hxlt]; exact hv, hvn⟩
  · intro j' hg hh
    rcases get?_snoc_elim done p j' (some hash) hg with ⟨hj, hg'⟩ | ⟨hj, heq⟩
    · exact hinv.ins j' hg' hh
    · exact absurd (heq ▸ truthy_some_of hash hh) ht
  · intro habs
    exact absurd habs (by simp)

/-- Pass-through branch of the `for` loop body preserves the invariant. -/
theorem passthru_forinv (hash : String) (fti0 : Bool) (done : List (Option String))
    (p : Option String) (s : RowState) (hinv : ForInv hash fti0 done s)
    (ht : truthy p = true) (hqh : p ≠ some hash) :
    ForInv hash fti0 (done ++ [p])
      { s with nextTracks := s.nextTracks ++ [p],
               tracks := setTrackAt s.tracks s.nextTracks.length
                 ⟨if s.nextTracks.length = 0 ∧ s.fti then 0 else 2,
                  s.nextTracks.length, [s.nextTracks.length], [s.nextTracks.length],
                  false⟩ } := by
  have hlen := hinv.len_next
  have hlt := hinv.len_tracks
  have htrEq : (⟨if s.nextTracks.length = 0 ∧ s.fti then 0 else 2,
      s.nextTracks.length, [s.nextTracks.length], [s.nextTracks.length], false⟩ : Track) =
      ptTrack fti0 s.nextTracks.length := by
    unfold ptTrack
    by_cases hj0 : s.nextTracks.length = 0
    · have hdone : done = [] := List.length_eq_zero.1 (by omega)
      rw [hinv.fti_init hdone]
    · simp [hj0]
  rw [htrEq]
  refine ⟨?_, ?_, ?_, ?_, ?_, ?_, ?_⟩
  · simp [hlen]
  · rw [setTrackAt, sparseSet_length_of_le _ _ _ (by omega)]
    simp
    omega
  · cases hm : s.mergedIdx with
    | none =>
      have hok := hinv.ok
      rw [hm] at hok
      intro j' t hg
      by_cases hj' : j' = s.nextTracks.length
      · subst hj'
        rw [setTrackAt_get?_self] at hg
        have hteq := Option.some.inj (Option.some.inj hg)
        rw [← hteq]
        simp [ptTrack]
      · exact hok j' t (setTrackAt_get?_ne_inv _ _ _ _ _ hj' hg)
    | some m =>
      have hok := hinv.ok
      rw [hm] at hok
      obtain ⟨⟨tm, htm, hact⟩, huniq⟩ := hok
      have hmlt : m < s.tracks.length := (List.get?_eq_some.1 htm).1
      have hmne : m ≠ s.nextTracks.length := by omega
      constructor
      · exact ⟨tm, setTrackAt_get?_ne_of_some _ _ _ _ _ hmne htm, hact⟩
      · intro j' t hg hne'
        by_cases hj' : j' = s.nextTracks.length
        · subst hj'
          rw [setTrackAt_get?_self] at hg
          have hteq := Option.some.inj (Option.some.inj hg)
          rw [← hteq]
          simp [ptTrack]
        · exact huniq j' t (setTrackAt_get?_ne_inv _ _ _ _ _ hj' hg) hne'
  · intro j' p' hg htp hnep
    rcases get?_snoc_elim done p j' p' hg with ⟨hj, hg'⟩ | ⟨hj, rfl⟩
    · obtain ⟨htr, hnx⟩ := hinv.pass j' p' hg' htp hnep
      have hne' : j' ≠ s.nextTracks.length := by omega
      exact ⟨setTrackAt_get?_ne_of_some _ _ _ _ _ hne' htr,
        by rw [get?_snoc_lt _ _ _ (by omega)]; exact hnx⟩
    · subst hj
      rw [← hlen]
      exact ⟨setTrackAt_get?_self _ _ _, get?_snoc_len _ _⟩
  · intro j' t hg x hx
    by_cases hj' : j' = s.nextTracks.length
    · subst hj'
      rw [setTrackAt_get?_self] at hg
      have hteq := Option.some.inj (Option.some.inj hg)
      rw [← hteq] at hx
      have hxj : x = s.nextTracks.length := by
        simpa [ptTrack] using hx
      subst hxj
      obtain ⟨v, hpv, hvn⟩ := truthy_elim p ht
      refine ⟨v, ?_, hvn⟩
      rw [get?_snoc_len, hpv]
    · have hold := setTrackAt_get?_ne_inv _ _ _ _ _ hj' hg
      obtain ⟨v, hv, hvn⟩ := hinv.outs j' t hold x hx
      have hxlt : x < s.nextTracks.length := (List.get?_eq_some.1 hv).1
      exact ⟨v, by rw [get?_snoc_lt _ _ _ hxlt]; exact hv, hvn⟩
  · intro j' hg hh
    rcases get?_snoc_elim done p j' (some hash) hg with ⟨hj, hg'⟩ | ⟨hj, heq⟩
    · obtain ⟨j'', t, htt, hmem, hact⟩ := hinv.ins j' hg' hh
      have hlt'' : j'' < s.tracks.length := (List.get?_eq_some.1 htt).1
      have hne'' : j'' ≠ s.nextTracks.length := by omega
      exact ⟨j'', t, setTrackAt_get?_ne_of_some _ _ _ _ _ hne'' htt, hmem, hact⟩
    · exact absurd heq.symm hqh
  · intro habs
    exact absurd habs (by simp)

/-- Primary branch of the `for` loop body (first lane matching the
commit hash, no merged track yet) preserves the invariant; `vis`, `kN`
and `ftiN` cover both visibility sub-branches. -/
theorem primary_forinv (hash : String) (fti0 : Bool) (done : List (Option String))
    (s : RowState) (hinv : ForInv hash fti0 done s) (hm : s.mergedIdx = none)
    (hh : hash.isEmpty = false) (vis kN : Nat) (ftiN : Bool) (out : Option String) :
    ForInv hash fti0 (done ++ [some hash])
      { tracks := setTrackAt s.tracks s.nextTracks.length
          ⟨vis, s.nextTracks.length, [s.nextTracks.length],
           if truthy out then [s.nextTracks.length] else [], true⟩,
        nextTracks := s.nextTracks ++ [out],
        mergedIdx := some s.nextTracks.length, k := kN, fti := ftiN } := by
  have hlen := hinv.len_next
  have hlt := hinv.len_tracks
  have hok := hinv.ok
  rw [hm] at hok
  refine ⟨?_, ?_, ?_, ?_, ?_, ?_, ?_⟩
  · simp [hlen]
  · rw [setTrackAt, sparseSet_length_of_le _ _ _ (by omega)]
    simp
    omega
  · constructor
    · exact ⟨_, setTrackAt_get?_self _ _ _, rfl⟩
    · intro j' t hg hne'
      exact hok j' t (setTrackAt_get?_ne_inv _ _ _ _ _ hne' hg)
  · intro j' p' hg htp hnep
    rcases get?_snoc_elim done (some hash) j' p' hg with ⟨hj, hg'⟩ | ⟨hj, rfl⟩
    · obtain ⟨htr, hnx⟩ := hinv.pass j' p' hg' htp hnep
      have hne' : j' ≠ s.nextTracks.length := by omega
      exact ⟨setTrackAt_get?_ne_of_some _ _ _ _ _ hne' htr,
        by rw [get?_snoc_lt _ _ _ (by omega)]; exact hnx⟩
    · exact absurd rfl hnep
  · intro j' t hg x hx
    by_cases hj' : j' = s.nextTracks.length
    · subst hj'
      rw [setTrackAt_get?_self] at hg
      have hteq := Option.some.inj (Option.some.inj hg)
      rw [← hteq] at hx
      simp only at hx
      by_cases hto : truthy out = true
      · rw [if_pos hto] at hx
        have hxj : x = s.nextTracks.length := by simpa using hx
        subst hxj
        obtain ⟨v, hpv, hvn⟩ := truthy_elim out hto
        refine ⟨v, ?_, hvn⟩
        rw [get?_snoc_len, hpv]
      · rw [if_neg hto] at hx
        exact absurd hx (List.not_mem_nil x)
    · have hold := setTrackAt_get?_ne_inv _ _ _ _ _ hj' hg
      obtain ⟨v, hv, hvn⟩ := hinv.outs j' t hold x hx
      have hxlt : x < s.nextTracks.length := (List.get?_eq_some.1 hv).1
      exact ⟨v, by rw [get?_snoc_lt _ _ _ hxlt]; exact hv, hvn⟩
  · intro j' hg hh'
    rcases get?_snoc_elim done (some hash) j' (some hash) hg with ⟨hj, hg'⟩ | ⟨hj, heq⟩
    · obtain ⟨j'', t, htt, hmem, hact⟩ := hinv.ins j' hg' hh'
      have h0 := hok j'' t htt
      rw [h0] at hact
      exact absurd hact (by simp)
    · subst hj
      refine ⟨s.nextTracks.length,
        ⟨vis, s.nextTracks.length, [s.nextTracks.length],
         if truthy out then [s.nextTracks.length] else [], true⟩,
        setTrackAt_get?_self _ _ _, ?_, rfl⟩
      simp [hlen]
  · intro habs
    exact absurd habs (by simp)

/-- Merge-in branch of the `for` loop body (another lane also matching
the commit hash while a merged track exists) preserves the invariant. -/
theorem mergein_forinv (hash : String) (fti0 : Bool) (done : List (Option String))
    (s : RowState) (hinv : ForInv hash fti0 done s) (m : Nat)
    (hm : s.mergedIdx = some m) (hh : hash.isEmpty = false) :
    ForInv hash fti0 (done ++ [some hash])
      { s with nextTracks := s.nextTracks ++ [none],
               tracks := pushIncomming s.tracks m s.nextTracks.length } := by
  have hlen := hinv.len_next
  have hlt := hinv.len_tracks
  have hok := hinv.ok
  rw [hm] at hok
  obtain ⟨⟨tm, htm, hact⟩, huniq⟩ := hok
  refine ⟨?_, ?_, ?_, ?_, ?_, ?_, ?_⟩
  · simp [hlen]
  · rw [pushIncomming_length]
    simp
    omega
  · rw [hm]
    constructor
    · exact ⟨_, pushIncomming_get?_self _ _ _ _ htm, hact⟩
    · intro j' t hg hne'
      rw [pushIncomming_get?_ne _ _ _ _ hne'] at hg
      exact huniq j' t hg hne'
  · intro j' p' hg htp hnep
    rcases get?_snoc_elim done (some hash) j' p' hg with ⟨hj, hg'⟩ | ⟨hj, rfl⟩
    · obtain ⟨htr, hnx⟩ := hinv.pass j' p' hg' htp hnep
      have hne' : j' ≠ m := by
        intro heq
        subst heq
        rw [htm] at htr
        have hteq := Option.some.inj (Option.some.inj htr)
        rw [hteq] at hact
        simp [ptTrack] at hact
      refine ⟨?_, by rw [get?_snoc_lt _ _ _ (by omega)]; exact hnx⟩
      rw [pushIncomming_get?_ne _ _ _ _ hne']
      exact htr
    · exact absurd rfl hnep
  · intro j' t hg x hx
    by_cases hj' : j' = m
    · subst hj'
      rw [pushIncomming_get?_self _ _ _ _ htm] at hg
      have hteq := Option.some.inj (Option.some.inj hg)
      subst hteq
      obtain ⟨v, hv, hvn⟩ := hinv.outs j' tm htm x (by simpa using hx)
      have hxlt : x < s.nextTracks.length := (List.get?_eq_some.1 hv).1
      exact ⟨v, by rw [get?_snoc_lt _ _ _ hxlt]; exact hv, hvn⟩
    · rw [pushIncomming_get?_ne _ _ _ _ hj'] at hg
      obtain ⟨v, hv, hvn⟩ := hinv.outs j' t hg x hx
      have hxlt : x < s.nextTracks.length := (List.get?_eq_some.1 hv).1
      exact ⟨v, by rw [get?_snoc_lt _ _ _ hxlt]; exact hv, hvn⟩
  · intro j' hg hh'
    rcases get?_snoc_elim done (some hash) j' (some hash) hg with ⟨hj, hg'⟩ | ⟨hj, heq⟩
    · obtain ⟨j'', t, htt, hmem, hact'⟩ := hinv.ins j' hg' hh'
      by_cases hj'' : j'' = m
      · subst hj''
        rw [htm] at htt
        have hteq := Option.some.inj (Option.some.inj htt)
        refine ⟨j'', _, pushIncomming_get?_self _ _ _ _ htm, ?_, hact⟩
        exact List.mem_append_left _ (hteq.symm ▸ hmem)
      · exact ⟨j'', t, by rw [pushIncomming_get?_ne _ _ _ _ hj'']; exact htt, hmem, hact'⟩
    · subst hj
      refine ⟨m, _, pushIncomming_get?_self _ _ _ _ htm, ?_, hact⟩
      apply List.mem_append_right
      simp [hlen]
  · intro habs
    exact absurd habs (by simp)

/-- Each `for`-loop iteration preserves the invariant. -/
theorem forStep_inv (hash : String) (parents : List String) (fti0 : Bool)
    (done : List (Option String)) (p : Option String) (s : RowState)
    (hinv : ForInv hash fti0 done s) :
    ForInv hash fti0 (done ++ [p]) (forStep hash parents s p) := by
  by_cases ht : truthy p = true
  · by_cases hqh : p = some hash
    · subst hqh
      have hh : hash.isEmpty = false := by simpa [truthy] using ht
      unfold forStep
      dsimp only
      rw [if_pos ht, if_pos rfl]
      split
      · next hm =>
        split
        · next hfc =>
          exact primary_forinv hash fti0 done s hinv hm hh 1 (s.k + 1) false _
        · next hfc =>
          exact primary_forinv hash fti0 done s hinv hm hh _ (s.k + 1) s.fti _
      · next m hm =>
        exact mergein_forinv hash fti0 done s hinv m hm hh
    · unfold forStep
      dsimp only
      rw [if_pos ht, if_neg hqh]
      exact passthru_forinv hash fti0 done p s hinv ht hqh
  · unfold forStep
    dsimp only
    rw [if_neg ht]
    exact null_forinv hash fti0 done p s hinv ht

/-- The whole `for` loop preserves the invariant. -/
theorem runFor_inv (hash : String) (parents : List String) (fti0 : Bool) :
    ∀ (todo done : List (Option String)) (s : RowState),
      ForInv hash fti0 done s →
      ForInv hash fti0 (done ++ todo) (runFor hash parents todo s) := by
  intro todo
  induction todo with
  | nil => intro done s h; simpa using h
  | cons p rest ih =>
    intro done s h
    have h2 := forStep_inv hash parents fti0 done p s h
    have h3 := ih (done ++ [p]) _ h2
    simpa using h3

/-- The invariant holds at the start of each row. -/
theorem forInv_init (hash : String) (fti0 : Bool) :
    ForInv hash fti0 [] ⟨[], [], none, 0, fti0⟩ := by
  refine ⟨rfl, by simp, ?_, ?_, ?_, ?_, fun _ => rfl⟩
  · intro j t hg
    simp at hg
  · intro j p hg ht hne
    simp at hg
  · intro j t hg x hx
    simp at hg
  · intro j hg hh
    simp at hg

/-- Transfer the `for`-loop invariant to the `while`-loop invariant. -/
theorem forInv_to_winv (hash : String) (fti0 : Bool) (current : List (Option String))
    (s : RowState) (h : ForInv hash fti0 current s) : WInv hash fti0 current s :=
  ⟨h.ok, h.pass, h.outs, h.ins⟩

/-- Writing a non-empty identifier into the lane vector keeps every open
slot open. -/
theorem setStrAt_keeps_open (next : List (Option String)) (i : Nat) (p : String)
    (hpe : p.isEmpty = false) (x : Nat) (v : String)
    (hv : next.get? x = some (some v)) (hvn : v.isEmpty = false) :
    ∃ w, (setStrAt next i (some p)).get? x = some (some w) ∧ w.isEmpty = false := by
  by_cases hxe : x = i
  · subst hxe
    exact ⟨p, setStrAt_get?_self _ _ _, hpe⟩
  · exact ⟨v, setStrAt_get?_ne_of_some _ _ _ _ _ hxe hv, hvn⟩

/-- The rejoining-parent branch of the `while` loop preserves the
invariant. -/
theorem wstep_exist (hash : String) (fti0 : Bool) (current : List (Option String))
    (s : RowState) (p : String) (exist : Nat)
    (h : WInv hash fti0 current s) (hpe : p.isEmpty = false)
    (hfind : current.get? exist = some (some p)) :
    WInv hash fti0 current
      { s with tracks := match s.mergedIdx with
                 | some m => pushOutgoing s.tracks m exist
                 | none => s.tracks,
               nextTracks := setStrAt s.nextTracks exist (some p),
               k := s.k + 1 } := by
  cases hm : s.mergedIdx with
  | none =>
    have hok := h.ok
    rw [hm] at hok
    refine ⟨?_, ?_, ?_, ?_⟩
    · exact hok
    · intro j' p' hc htp hnep
      obtain ⟨htr, hnx⟩ := h.pass j' p' hc htp hnep
      refine ⟨htr, ?_⟩
      by_cases hj : j' = exist
      · subst hj
        rw [hfind] at hc
        rw [← Option.some.inj hc]
        exact setStrAt_get?_self _ _ _
      · exact setStrAt_get?_ne_of_some _ _ _ _ _ hj hnx
    · intro j' t hg x hx
      obtain ⟨v, hv, hvn⟩ := h.outs j' t hg x hx
      exact setStrAt_keeps_open _ _ _ hpe x v hv hvn
    · exact h.ins
  | some m =>
    have hok := h.ok
    rw [hm] at hok
    obtain ⟨⟨tm, htm, hact⟩, huniq⟩ := hok
    refine ⟨?_, ?_, ?_, ?_⟩
    · show TracksOk (pushOutgoing s.tracks m exist) (some m)
      constructor
      · exact ⟨_, pushOutgoing_get?_self _ _ _ _ htm, hact⟩
      · intro j' t hg hne'
        rw [pushOutgoing_get?_ne _ _ _ _ hne'] at hg
        exact huniq j' t hg hne'
    · intro j' p' hc htp hnep
      obtain ⟨htr, hnx⟩ := h.pass j' p' hc htp hnep
      have hne' : j' ≠ m := by
        intro heq
        subst heq
        rw [htm] at htr
        have hteq := Option.some.inj (Option.some.inj htr)
        rw [hteq] at hact
        simp [ptTrack] at hact
      refine ⟨by rw [pushOutgoing_get?_ne _ _ _ _ hne']; exact htr, ?_⟩
      by_cases hj : j' = exist
      · subst hj
        rw [hfind] at hc
        rw [← Option.some.inj hc]
        exact setStrAt_get?_self _ _ _
      · exact setStrAt_get?_ne_of_some _ _ _ _ _ hj hnx
    · intro j' t hg x hx
      by_cases hj' : j' = m
      · subst hj'
        rw [pushOutgoing_get?_self _ _ _ _ htm] at hg
        have hteq := Option.some.inj (Option.some.inj hg)
        subst hteq
        have hx2 : x ∈ tm.outgoing ++ [exist] := by simpa using hx
        rcases List.mem_append.1 hx2 with hxo | hxe
        · obtain ⟨v, hv, hvn⟩ := h.outs j' tm htm x hxo
          exact setStrAt_keeps_open _ _ _ hpe x v hv hvn
        · have hxe2 : x = exist := by simpa using hxe
          subst hxe2
          exact ⟨p, setStrAt_get?_self _ _ _, hpe⟩
      · rw [pushOutgoing_get?_ne _ _ _ _ hj'] at hg
        obtain ⟨v, hv, hvn⟩ := h.outs j' t hg x hx
        exact setStrAt_keeps_open _ _ _ hpe x v hv hvn
    · intro j' hc hh'
      obtain ⟨j'', t, htt, hmem, hact'⟩ := h.ins j' hc hh'
      by_cases hj'' : j'' = m
      · subst hj''
        rw [htm] at htt
        have hteq := Option.some.inj (Option.some.inj htt)
        refine ⟨j'', _, pushOutgoing_get?_self _ _ _ _ htm, ?_, hact⟩
        exact hteq.symm ▸ hmem
      · exact ⟨j'', t, by rw [pushOutgoing_get?_ne _ _ _ _ hj'']; exact htt, hmem, hact'⟩

/-- The new-lane branch of the `while` loop with an existing merged
track preserves the invariant. -/
theorem wstep_alloc_merged (hash : String) (fti0 : Bool) (current : List (Option String))
    (s : RowState) (p : String) (m : Nat)
    (h : WInv hash fti0 current s) (hpe : p.isEmpty = false) (hm : s.mergedIdx = some m) :
    WInv hash fti0 current
      { s with tracks := pushOutgoing s.tracks m (freeIdx s.nextTracks),
               nextTracks := setStrAt s.nextTracks (freeIdx s.nextTracks) (some p),
               k := s.k + 1 } := by
  have hok := h.ok
  rw [hm] at hok
  obtain ⟨⟨tm, htm, hact⟩, huniq⟩ := hok
  refine ⟨?_, ?_, ?_, ?_⟩
  · rw [hm]
    constructor
    · exact ⟨_, pushOutgoing_get?_self _ _ _ _ htm, hact⟩
    · intro j' t hg hne'
      rw [pushOutgoing_get?_ne _ _ _ _ hne'] at hg
      exact huniq j' t hg hne'
  · intro j' p' hc htp hnep
    obtain ⟨htr, hnx⟩ := h.pass j' p' hc htp hnep
    obtain ⟨v, hpv, hvn⟩ := truthy_elim p' htp
    have hfj : freeIdx s.nextTracks ≠ j' := freeIdx_ne_some _ _ v (by rwa [hpv] at hnx)
    have hne' : j' ≠ m := by
      intro heq
      subst heq
      rw [htm] at htr
      have hteq := Option.some.inj (Option.some.inj htr)
      rw [hteq] at hact
      simp [ptTrack] at hact
    exact ⟨by rw [pushOutgoing_get?_ne _ _ _ _ hne']; exact htr,
      setStrAt_get?_ne_of_some _ _ _ _ _ (Ne.symm hfj) hnx⟩
  · intro j' t hg x hx
    by_cases hj' : j' = m
    · subst hj'
      rw [pushOutgoing_get?_self _ _ _ _ htm] at hg
      have hteq := Option.some.inj (Option.some.inj hg)
      subst hteq
      have hx2 : x ∈ tm.outgoing ++ [freeIdx s.nextTracks] := by simpa using hx
      rcases List.mem_append.1 hx2 with hxo | hxe
      · obtain ⟨v, hv, hvn⟩ := h.outs j' tm htm x hxo
        exact setStrAt_keeps_open _ _ _ hpe x v hv hvn
      · have hxe2 : x = freeIdx s.nextTracks := by simpa using hxe
        subst hxe2
        exact ⟨p, setStrAt_get?_self _ _ _, hpe⟩
    · rw [pushOutgoing_get?_ne _ _ _ _ hj'] at hg
      obtain ⟨v, hv, hvn⟩ := h.outs j' t hg x hx
      exact setStrAt_keeps_open _ _ _ hpe x v hv hvn
  · intro j' hc hh'
    obtain ⟨j'', t, htt, hmem, hact'⟩ := h.ins j' hc hh'
    by_cases hj'' : j'' = m
    · subst hj''
      rw [htm] at htt
      have hteq := Option.some.inj (Option.some.inj htt)
      refine ⟨j'', _, pushOutgoing_get?_self _ _ _ _ htm, ?_, hact⟩
      exact hteq.symm ▸ hmem
    · exact ⟨j'', t, by rw [pushOutgoing_get?_ne _ _ _ _ hj'']; exact htt, hmem, hact'⟩

/-- The new-lane branch of the `while` loop with no merged track yet
(the commit matched no lane) preserves the invariant. -/
theorem wstep_alloc_new (hash : String) (fti0 : Bool) (current : List (Option String))
    (s : RowState) (p : String)
    (h : WInv hash fti0 current s) (hpe : p.isEmpty = false) (hm : s.mergedIdx = none) :
    WInv hash fti0 current
      { s with tracks := setTrackAt s.tracks (freeIdx s.nextTracks)
                 ⟨2, freeIdx s.nextTracks, [], [freeIdx s.nextTracks], true⟩,
               nextTracks := setStrAt s.nextTracks (freeIdx s.nextTracks) (some p),
               mergedIdx := some (freeIdx s.nextTracks),
               k := s.k + 1 } := by
  have hok := h.ok
  rw [hm] at hok
  refine ⟨?_, ?_, ?_, ?_⟩
  · constructor
    · exact ⟨_, setTrackAt_get?_self _ _ _, rfl⟩
    · intro j' t hg hne'
      exact hok j' t (setTrackAt_get?_ne_inv _ _ _ _ _ hne' hg)
  · intro j' p' hc htp hnep
    obtain ⟨htr, hnx⟩ := h.pass j' p' hc htp hnep
    obtain ⟨v, hpv, hvn⟩ := truthy_elim p' htp
    have hfj : freeIdx s.nextTracks ≠ j' := freeIdx_ne_some _ _ v (by rwa [hpv] at hnx)
    exact ⟨setTrackAt_get?_ne_of_some _ _ _ _ _ (Ne.symm hfj) htr,
      setStrAt_get?_ne_of_some _ _ _ _ _ (Ne.symm hfj) hnx⟩
  · intro j' t hg x hx
    by_cases hj' : j' = freeIdx s.nextTracks
    · subst hj'
      rw [setTrackAt_get?_self] at hg
      have hteq := Option.some.inj (Option.some.inj hg)
      rw [← hteq] at hx
      have hxj : x = freeIdx s.nextTracks := by simpa using hx
      subst hxj
      exact ⟨p, setStrAt_get?_self _ _ _, hpe⟩
    · have hold := setTrackAt_get?_ne_inv _ _ _ _ _ hj' hg
      obtain ⟨v, hv, hvn⟩ := h.outs j' t hold x hx
      exact setStrAt_keeps_open _ _ _ hpe x v hv hvn
  · intro j' hc hh'
    obtain ⟨j'', t, htt, hmem, hact'⟩ := h.ins j' hc hh'
    have h0 := hok j'' t htt
    rw [h0] at hact'
    exact absurd hact' (by simp)

/-- The whole `while` loop preserves the invariant. -/
theorem runWhile_inv (hash : String) (fti0 : Bool) (parents : List String)
    (current : List (Option String)) :
    ∀ (fuel : Nat) (s : RowState), WInv hash fti0 current s →
      WInv hash fti0 current (runWhile parents current fuel s) := by
  intro fuel
  induction fuel with
  | zero => intro s h; exact h
  | succ f ih =>
    intro s h
    unfold runWhile
    split
    · exact h
    · next p hp =>
      split
      · exact h
      · next hpe =>
        have hpe' : p.isEmpty = false := by
          cases hq : p.isEmpty
          · rfl
          · exact absurd hq hpe
        split
        · next exist hfind =>
          obtain ⟨a, ha, hqa⟩ := findIdx?_some_get hfind
          have ha2 : a = some p := by simpa using hqa
          subst ha2
          exact ih _ (wstep_exist hash fti0 current s p exist h hpe' ha)
        · next hnofind =>
          split
          · next m hm =>
            exact ih _ (wstep_alloc_merged hash fti0 current s p m h hpe' hm)
          · next hm =>
            exact ih _ (wstep_alloc_new hash fti0 current s p h hpe' hm)

/-- The finished row of `stepCommit` satisfies the `while` invariant. -/
theorem stepCommit_winv (st : LaneState) (c : Commit) :
    WInv c.hash st.fti st.currentTracks
      (runWhile c.parents st.currentTracks (c.parents.length + 1)
        (runFor c.hash c.parents st.currentTracks ⟨[], [], none, 0, st.fti⟩)) := by
  apply runWhile_inv
  apply forInv_to_winv
  have h := runFor_inv c.hash c.parents st.fti st.currentTracks [] _
    (forInv_init c.hash st.fti)
  simpa using h

/-- Equation lemma: `runCommits` on a cons. -/
theorem runCommits_cons_fst (st : LaneState) (c : Commit) (cs : List Commit) :
    (runCommits st (c :: cs)).1 =
      (stepCommit st c).1 :: (runCommits (stepCommit st c).2 cs).1 := rfl

theorem runCommits_cons_snd (st : LaneState) (c : Commit) (cs : List Commit) :
    (runCommits st (c :: cs)).2 = (runCommits (stepCommit st c).2 cs).2 := rfl

theorem runCommits_nil_eq (st : LaneState) : runCommits st [] = ([], st) := rfl

/-- One row: an open lane the commit does not match yields a pass-through
track and keeps its identifier in the lane vector. -/
theorem stepCommit_pass (st : LaneState) (c : Commit) (j : Nat) (v : String)
    (hj : st.currentTracks.get? j = some (some v)) (hv : v.isEmpty = false)
    (hne : v ≠ c.hash) :
    (stepCommit st c).1.get? j = some (some (ptTrack st.fti j)) ∧
    (stepCommit st c).2.currentTracks.get? j = some (some v) :=
  (stepCommit_winv st c).pass j (some v) hj (truthy_some_of v hv) (by simpa using hne)

/-- The `while` loop on an empty parent list is the identity. -/
theorem runWhile_nil_parents (current : List (Option String)) :
    ∀ (fuel : Nat) (s : RowState), runWhile [] current fuel s = s := by
  intro fuel s
  cases fuel with
  | zero => rfl
  | succ f => rfl

theorem forStep_pass_eq (hash : String) (parents : List String) (s : RowState)
    (p : Option String) (ht : truthy p = true) (hqh : p ≠ some hash) :
    forStep hash parents s p =
      { s with nextTracks := s.nextTracks ++ [p],
               tracks := setTrackAt s.tracks s.nextTracks.length
                 ⟨if s.nextTracks.length = 0 ∧ s.fti = true then 0 else 2,
                  s.nextTracks.length, [s.nextTracks.length], [s.nextTracks.length],
                  false⟩ } := by
  unfold forStep
  dsimp only
  rw [if_pos ht, if_neg hqh]

theorem forStep_null_eq (hash : String) (parents : List String) (s : RowState)
    (p : Option String) (ht : ¬truthy p = true) :
    forStep hash parents s p = { s with nextTracks := s.nextTracks ++ [none] } := by
  unfold forStep
  dsimp only
  rw [if_neg ht]

/-- When the commit matches no lane, the `for` loop only produces
pass-throughs: `mergedIdx`, `k` and the flag are untouched and the next
lane vector is the normalized current one. -/
theorem runFor_nomatch (hash : String) (parents : List String) :
    ∀ (l : List (Option String)) (s : RowState), matchesNone hash l →
      (runFor hash parents l s).mergedIdx = s.mergedIdx ∧
      (runFor hash parents l s).k = s.k ∧
      (runFor hash parents l s).nextTracks = s.nextTracks ++ l.map jsOrNull ∧
      (runFor hash parents l s).fti = s.fti := by
  intro l
  induction l with
  | nil => intro s _; simp [runFor]
  | cons q rest ih =>
    intro s hnm
    have hq := hnm q (by simp)
    have hrest : matchesNone hash rest := fun x hx => hnm x (by simp [hx])
    have hrfor : runFor hash parents (q :: rest) s =
        runFor hash parents rest (forStep hash parents s q) := rfl
    rw [hrfor]
    by_cases ht : truthy q = true
    · have hne : q ≠ some hash := fun heq => hq ⟨ht, heq⟩
      rw [forStep_pass_eq hash parents s q ht hne]
      obtain ⟨h1, h2, h3, h4⟩ := ih _ hrest
      refine ⟨h1, h2, ?_, h4⟩
      rw [h3]
      have hjq : jsOrNull q = q := by simp [jsOrNull, ht]
      simp [hjq]
    · rw [forStep_null_eq hash parents s q ht]
      obtain ⟨h1, h2, h3, h4⟩ := ih _ hrest
      refine ⟨h1, h2, ?_, h4⟩
      rw [h3]
      have hjq : jsOrNull q = none := by
        simp only [jsOrNull]
        rw [if_neg ht]
      simp [hjq]

/-- A commit with no parents and no matching lane produces no active
track at all. -/
theorem stepCommit_noparents_inactive (st : LaneState) (c : Commit)
    (hpar : c.parents = []) (hnm : matchesNone c.hash st.currentTracks) :
    ∀ j t, (stepCommit st c).1.get? j = some (some t) → t.active = false := by
  intro j t hg
  have hfi := runFor_inv c.hash c.parents st.fti st.currentTracks [] _
    (forInv_init c.hash st.fti)
  obtain ⟨h1, _, _, _⟩ := runFor_nomatch c.hash c.parents st.currentTracks
    ⟨[], [], none, 0, st.fti⟩ hnm
  have hok := hfi.ok
  rw [h1] at hok
  have hstep : (stepCommit st c).1 =
      (runFor c.hash c.parents st.currentTracks ⟨[], [], none, 0, st.fti⟩).tracks := by
    show (runWhile c.parents st.currentTracks (c.parents.length + 1) _).tracks = _
    rw [hpar, runWhile_nil_parents]
  rw [hstep] at hg
  exact hok j t hg

/-- C8: a lane whose expected identifier never equals any processed
commit's hash keeps that identifier in the lane vector after the whole
run, and every produced row carries a pass-through track
(`incoming = outgoing = [laneIndex]`, `active = false`) at that column;
lane assignment is a total function, so every call completes. -/
theorem unmatched_lane_persists (st : LaneState) (cs : List Commit) (j : Nat) (v : String)
    (hv : v.isEmpty = false) (hj : st.currentTracks.get? j = some (some v))
    (hne : ∀ c ∈ cs, c.hash ≠ v) :
    (runCommits st cs).2.currentTracks.get? j = some (some v) ∧
    ∀ row ∈ (runCommits st cs).1,
      ∃ vis, row.get? j = some (some ⟨vis, j, [j], [j], false⟩) := by
  induction cs generalizing st with
  | nil =>
    refine ⟨hj, ?_⟩
    intro row hrow
    rw [runCommits_nil_eq] at hrow
    exact absurd hrow (List.not_mem_nil row)
  | cons c rest ih =>
    obtain ⟨htr, hnx⟩ := stepCommit_pass st c j v hj hv (Ne.symm (hne c (by simp)))
    obtain ⟨hfin, hrows⟩ := ih (stepCommit st c).2 hnx
      (fun c' hc' => hne c' (List.mem_cons_of_mem c hc'))
    constructor
    · rw [runCommits_cons_snd]
      exact hfin
    · intro row hrow
      rw [runCommits_cons_fst] at hrow
      rcases List.mem_cons.1 hrow with rfl | hrow2
      · exact ⟨(ptTrack st.fti j).visible, htr⟩
      · exact hrows row hrow2

/-- Witness for C8: seed lane `Z` never matched by the one processed
commit. -/
theorem unmatched_lane_persists_witness :
    (runCommits ⟨true, [some "Z"]⟩ [⟨"A", ["B"]⟩]).2.currentTracks.get? 0 =
        some (some "Z") ∧
      ∀ row ∈ (runCommits ⟨true, [some "Z"]⟩ [⟨"A", ["B"]⟩]).1,
        ∃ vis, row.get? 0 = some (some ⟨vis, 0, [0], [0], false⟩) :=
  unmatched_lane_persists ⟨true, [some "Z"]⟩ [⟨"A", ["B"]⟩] 0 "Z" (by decide) (by decide)
    (by decide)

/-- C10: every produced row has at most one active track (the commit's
node marker); every lane the commit does not match yields an inactive
pass-through; and a commit with no parents matching no lane yields a row
with no active track at all. -/
theorem active_marker_unique (st : LaneState) (c : Commit) :
    (∀ j1 j2 t1 t2, (stepCommit st c).1.get? j1 = some (some t1) → t1.active = true →
        (stepCommit st c).1.get? j2 = some (some t2) → t2.active = true → j1 = j2) ∧
    (∀ j p, st.currentTracks.get? j = some p → truthy p = true → p ≠ some c.hash →
        ∃ t, (stepCommit st c).1.get? j = some (some t) ∧ t.active = false) ∧
    (c.parents = [] → matchesNone c.hash st.currentTracks →
        ∀ j t, (stepCommit st c).1.get? j = some (some t) → t.active = false) := by
  refine ⟨?_, ?_, fun hpar hnm => stepCommit_noparents_inactive st c hpar hnm⟩
  · intro j1 j2 t1 t2 h1 ha1 h2 ha2
    have hok := (stepCommit_winv st c).ok
    cases hm : (runWhile c.parents st.currentTracks (c.parents.length + 1)
        (runFor c.hash c.parents st.currentTracks ⟨[], [], none, 0, st.fti⟩)).mergedIdx with
    | none =>
      rw [hm] at hok
      have h0 := hok j1 t1 h1
      rw [h0] at ha1
      exact absurd ha1 (by simp)
    | some m =>
      rw [hm] at hok
      obtain ⟨_, huniq⟩ := hok
      by_cases hj1 : j1 = m
      · by_cases hj2 : j2 = m
        · rw [hj1, hj2]
        · have h0 := huniq j2 t2 h2 hj2
          rw [h0] at ha2
          exact absurd ha2 (by simp)
      · have h0 := huniq j1 t1 h1 hj1
        rw [h0] at ha1
        exact absurd ha1 (by simp)
  · intro j p hc htp hnep
    obtain ⟨htr, _⟩ := (stepCommit_winv st c).pass j p hc htp hnep
    exact ⟨ptTrack st.fti j, htr, by simp [ptTrack]⟩

/-- Witness for C10 at the seeded state with an unmatched commit. -/
theorem active_marker_unique_witness :
    (∃ t, (stepCommit ⟨true, [some "Z"]⟩ ⟨"A", ["B"]⟩).1.get? 0 = some (some t) ∧
      t.active = false) ∧
    (∀ j t, (stepCommit ⟨true, [some "Z"]⟩ ⟨"C", []⟩).1.get? j = some (some t) →
      t.active = false) :=
  ⟨(active_marker_unique ⟨true, [some "Z"]⟩ ⟨"A", ["B"]⟩).2.1 0 (some "Z")
      (by decide) (by decide) (by decide),
   (active_marker_unique ⟨true, [some "Z"]⟩ ⟨"C", []⟩).2.2 (by decide)
      (by unfold matchesNone; decide)⟩

/-- Every outgoing index of a produced row points at an open slot of the
next lane vector. -/
theorem stepCommit_outgoing (st : LaneState) (c : Commit) (j k : Nat) (t : Track)
    (ht : (stepCommit st c).1.get? j = some (some t)) (hk : k ∈ t.outgoing) :
    ∃ v : String, (stepCommit st c).2.currentTracks.get? k = some (some v) ∧
      v.isEmpty = false :=
  (stepCommit_winv st c).outs j t ht k hk

/-- Every open lane is picked up by the next row: some track of that row
(the pass-through at the same column, or the merged track the lane is
absorbed into) records it in `incomming`. -/
theorem stepCommit_incomming (st : LaneState) (c : Commit) (k : Nat) (v : String)
    (hk : st.currentTracks.get? k = some (some v)) (hv : v.isEmpty = false) :
    ∃ t, (some t) ∈ (stepCommit st c).1 ∧ k ∈ t.incomming := by
  by_cases hh : v = c.hash
  · subst hh
    obtain ⟨j', t, htt, hmem, _⟩ := (stepCommit_winv st c).ins k hk hv
    exact ⟨t, List.get?_mem htt, hmem⟩
  · obtain ⟨htr, _⟩ := stepCommit_pass st c k v hk hv hh
    exact ⟨ptTrack st.fti k, List.get?_mem htr, by simp [ptTrack]⟩

/-- Two consecutive rows of `runCommits` come from two consecutive
`stepCommit` applications. -/
theorem runCommits_consecutive (j : Nat) :
    ∀ (cs : List Commit) (st : LaneState) (i : Nat) (r1 r2 : List (Option Track)),
      (runCommits st cs).1.get? i = some r1 →
      (runCommits st cs).1.get? (i + 1) = some r2 →
      ∃ st1 c1 c2, r1 = (stepCommit st1 c1).1 ∧
        r2 = (stepCommit (stepCommit st1 c1).2 c2).1 := by
  intro cs
  induction cs with
  | nil =>
    intro st i r1 r2 h1 _
    rw [runCommits_nil_eq] at h1
    simp at h1
  | cons c rest ih =>
    intro st i r1 r2 h1 h2
    rw [runCommits_cons_fst] at h1 h2
    cases i with
    | zero =>
      have hr1 : r1 = (stepCommit st c).1 := by
        simpa using h1.symm
      cases rest with
      | nil =>
        rw [runCommits_nil_eq] at h2
        simp at h2
      | cons c2 rest2 =>
        rw [runCommits_cons_fst] at h2
        have hr2 : r2 = (stepCommit (stepCommit st c).2 c2).1 := by
          simpa using h2.symm
        exact ⟨st, c, c2, hr1, hr2⟩
    | succ n =>
      exact ih (stepCommit st c).2 n r1 r2 (by simpa using h1) (by simpa using h2)

/-- C2 counterexample: in the run `A(parents:[B,C])`, `B(parents:[C])`,
`C` seeded from `A`, row 1's track at column 1 has `1 ∈ outgoing`, but
row 2's track array has no track at column 1: the lane merges into the
primary at column 0, whose `incoming` is `[0, 1]`. -/
theorem connectivity_at_column_fails :
    (runCommits (initialLaneState (some "A"))
        [⟨"A", ["B", "C"]⟩, ⟨"B", ["C"]⟩, ⟨"C", []⟩]).1.get? 1 =
      some [some ⟨2, 0, [0], [0], true⟩, some ⟨2, 1, [1], [1], false⟩] ∧
    (runCommits (initialLaneState (some "A"))
        [⟨"A", ["B", "C"]⟩, ⟨"B", ["C"]⟩, ⟨"C", []⟩]).1.get? 2 =
      some [some ⟨2, 0, [0, 1], [], true⟩] ∧
    ((runCommits (initialLaneState (some "A"))
        [⟨"A", ["B", "C"]⟩, ⟨"B", ["C"]⟩, ⟨"C", []⟩]).1.getD 2 []).get? 1 = none := by
  refine ⟨rfl, rfl, rfl⟩

/-- C2 (amended): for every run and rows `i`, `i+1`, if a track of row
`i` has `k` in `outgoing`, then row `i+1` contains a non-null track
whose `incoming` contains `k` — at column `k` when the lane passes
through or is primary, but absorbed into the merged track's `incoming`
(at a different column) when lane `k` merges in. -/
theorem connectivity_roundtrip (st : LaneState) (cs : List Commit) (i k j : Nat)
    (r1 r2 : List (Option Track)) (t : Track)
    (h1 : (runCommits st cs).1.get? i = some r1)
    (h2 : (runCommits st cs).1.get? (i + 1) = some r2)
    (ht : r1.get? j = some (some t)) (hk : k ∈ t.outgoing) :
    ∃ t2, (some t2) ∈ r2 ∧ k ∈ t2.incomming := by
  obtain ⟨st1, c1, c2, hr1, hr2⟩ := runCommits_consecutive j cs st i r1 r2 h1 h2
  subst hr1
  subst hr2
  obtain ⟨v, hv, hvn⟩ := stepCommit_outgoing st1 c1 j k t ht hk
  exact stepCommit_incomming _ c2 k v hv hvn

/-- Witness for the amended C2 on the spec's four-commit scenario,
rows 0 and 1. -/
theorem connectivity_roundtrip_witness :
    ∃ t2, (some t2) ∈ [some (⟨2, 0, [0], [0, 1], true⟩ : Track)] ∧ 0 ∈ t2.incomming :=
  connectivity_roundtrip (initialLaneState (some "A"))
    [⟨"A", ["B"]⟩, ⟨"B", ["C", "D"]⟩, ⟨"C", []⟩, ⟨"D", []⟩] 0 0 0
    [some ⟨1, 0, [0], [0], true⟩] [some ⟨2, 0, [0], [0, 1], true⟩]
    ⟨1, 0, [0], [0], true⟩ rfl rfl rfl (by decide)

/-- One `while` iteration in the no-match, no-merged case: allocate the
first free lane slot for the parent. -/
theorem runWhile_step_new (parents : List String) (current : List (Option String))
    (fuel : Nat) (s : RowState) (p : String)
    (hk : parents.get? s.k = some p) (hpe : p.isEmpty = false)
    (hnf : current.findIdx? (· = some p) = none) (hm : s.mergedIdx = none) :
    runWhile parents current (fuel + 1) s =
      runWhile parents current fuel
        { s with tracks := setTrackAt s.tracks (freeIdx s.nextTracks)
                   ⟨2, freeIdx s.nextTracks, [], [freeIdx s.nextTracks], true⟩,
                 nextTracks := setStrAt s.nextTracks (freeIdx s.nextTracks) (some p),
                 mergedIdx := some (freeIdx s.nextTracks),
                 k := s.k + 1 } := by
  conv_lhs => unfold runWhile
  split
  · next hnone =>
    rw [hk] at hnone
    exact absurd hnone (by simp)
  · next p' hp' =>
    rw [hk] at hp'
    have hpp : p = p' := Option.some.inj hp'
    subst hpp
    rw [if_neg (by simp [hpe])]
    split
    · next exist hfind =>
      rw [hnf] at hfind
      exact absurd hfind (by simp)
    · split
      · next m hm2 =>
        rw [hm] at hm2
        exact absurd hm2 (by simp)
      · rfl

/-- The `while` loop stops when the parent cursor is exhausted. -/
theorem runWhile_stop (parents : List String) (current : List (Option String))
    (fuel : Nat) (s : RowState) (hk : parents.get? s.k = none) :
    runWhile parents current (fuel + 1) s = s := by
  conv_lhs => unfold runWhile
  split
  · rfl
  · next p' hp' =>
    rw [hk] at hp'
    exact absurd hp' (by simp)

/-- C7 counterexample: seeded from head `Z` with the flag set, the
unmatched commit `A(parent: B)` gets its active track at column 1 (the
first free slot after the still-open seed lane), not column 0; the
column-0 track is an inactive pass-through. -/
theorem new_lane_not_at_zero :
    matchesNone "A" (initialLaneState (some "Z")).currentTracks ∧
    (stepCommit (initialLaneState (some "Z")) ⟨"A", ["B"]⟩).1.get? 0 =
      some (some ⟨0, 0, [0], [0], false⟩) ∧
    (stepCommit (initialLaneState (some "Z")) ⟨"A", ["B"]⟩).1.get? 1 =
      some (some ⟨2, 1, [], [1], true⟩) := by
  refine ⟨by unfold matchesNone; decide, rfl, rfl⟩

/-- Writing back the value a slot already holds leaves the array
unchanged (the while loop's rejoining-parent write is such a write when
no merged track exists yet). -/
theorem sparseSet_id {α : Type} :
    ∀ (l : List (Option α)) (i : Nat) (v : Option α),
      l.get? i = some v → sparseSet l i v = l := by
  intro l
  induction l with
  | nil => intro i v h; simp at h
  | cons x xs ih =>
    intro i v h
    cases i with
    | zero =>
      have hx : x = v := by simpa using h
      subst hx
      rfl
    | succ n =>
      have hrec := ih n v (by simpa using h)
      simp [sparseSet, hrec]

/-- The `while` loop stops on an empty (falsy) parent string. -/
theorem runWhile_stop_empty (parents : List String) (current : List (Option String))
    (fuel : Nat) (s : RowState) (q : String)
    (hk : parents.get? s.k = some q) (hq : q.isEmpty = true) :
    runWhile parents current (fuel + 1) s = s := by
  conv_lhs => unfold runWhile
  split
  · rfl
  · next p' hp' =>
    rw [hk] at hp'
    have hpp : q = p' := Option.some.inj hp'
    subst hpp
    rw [if_pos hq]

/-- One `while` iteration on a parent that rejoins an existing lane,
while no merged track exists and the lane vector is still the
normalized current one, only advances the parent cursor: the slot
write re-writes the value the slot already holds. -/
theorem runWhile_step_matched (parents : List String) (current : List (Option String))
    (fuel : Nat) (s : RowState) (q : String)
    (hm : s.mergedIdx = none) (hk : parents.get? s.k = some q)
    (hq : q.isEmpty = false)
    (hf : ∃ e, current.findIdx? (· = some q) = some e)
    (hnx : s.nextTracks = current.map jsOrNull) :
    runWhile parents current (fuel + 1) s =
      runWhile parents current fuel { s with k := s.k + 1 } := by
  obtain ⟨e, hfe⟩ := hf
  obtain ⟨a, hae, hqa⟩ := findIdx?_some_get hfe
  have ha : a = some q := by simpa using hqa
  subst ha
  have hmap : s.nextTracks.get? e = some (some q) := by
    rw [hnx, List.get?_map, hae]
    simp [jsOrNull, truthy, hq]
  have hid : setStrAt s.nextTracks e (some q) = s.nextTracks := sparseSet_id _ _ _ hmap
  conv_lhs => unfold runWhile
  split
  · next hnone =>
    rw [hk] at hnone
    exact absurd hnone (by simp)
  · next p' hp' =>
    rw [hk] at hp'
    have hpp : q = p' := Option.some.inj hp'
    subst hpp
    rw [if_neg (by simp [hq])]
    split
    · next exist hfind =>
      rw [hfe] at hfind
      have hee : e = exist := Option.some.inj hfind
      subst hee
      rw [hm, hid]
    · next hfind =>
      rw [hfe] at hfind
      exact absurd hfind (by simp)

/-- Skipping a whole prefix of rejoining parents only advances the
parent cursor past them. -/
theorem runWhile_skip_matched (parents : List String) (current : List (Option String)) :
    ∀ (pre : List String) (fuel : Nat) (s : RowState),
      s.mergedIdx = none →
      s.nextTracks = current.map jsOrNull →
      (∀ i q, pre.get? i = some q → parents.get? (s.k + i) = some q) →
      (∀ q ∈ pre, q.isEmpty = false ∧ ∃ e, current.findIdx? (· = some q) = some e) →
      runWhile parents current (fuel + pre.length) s =
        runWhile parents current fuel { s with k := s.k + pre.length } := by
  intro pre
  induction pre with
  | nil =>
    intro fuel s _ _ _ _
    rfl
  | cons q rest ih =>
    intro fuel s hm hnx hpos hall
    have hk : parents.get? s.k = some q := by
      have h0 := hpos 0 q (by simp)
      simpa using h0
    obtain ⟨hqe, he⟩ := hall q (by simp)
    have hstep : runWhile parents current (fuel + (q :: rest).length) s =
        runWhile parents current (fuel + rest.length) { s with k := s.k + 1 } :=
      runWhile_step_matched parents current (fuel + rest.length) s q hm hk hqe he hnx
    rw [hstep]
    have hpos2 : ∀ i q', rest.get? i = some q' →
        parents.get? (({ s with k := s.k + 1 } : RowState).k + i) = some q' := by
      intro i q' hq'
      have h1 := hpos (i + 1) q' (by simpa using hq')
      have harith : s.k + (i + 1) = s.k + 1 + i := by omega
      rw [harith] at h1
      exact h1
    have ih2 := ih fuel { s with k := s.k + 1 } hm hnx hpos2
      (fun q' hq' => hall q' (by simp [hq']))
    rw [ih2]
    have harith2 : ({ s with k := s.k + 1 } : RowState).k + rest.length =
        s.k + (q :: rest).length := by
      simp
      omega
    rw [harith2]

/-- Once a merged track exists, the rest of the `while` loop only pushes
onto its `outgoing`: its position, `active`, `incomming`, `depth` and
`visible` survive to the end of the row. -/
theorem runWhile_preserves_merged (parents : List String) (current : List (Option String)) :
    ∀ (fuel : Nat) (s : RowState) (m : Nat) (t : Track),
      s.mergedIdx = some m → s.tracks.get? m = some (some t) →
      ∃ t', (runWhile parents current fuel s).tracks.get? m = some (some t') ∧
        t'.active = t.active ∧ t'.incomming = t.incomming ∧ t'.depth = t.depth ∧
        t'.visible = t.visible := by
  intro fuel
  induction fuel with
  | zero =>
    intro s m t hm ht
    exact ⟨t, ht, rfl, rfl, rfl, rfl⟩
  | succ f ih =>
    intro s m t hm ht
    unfold runWhile
    split
    · exact ⟨t, ht, rfl, rfl, rfl, rfl⟩
    · next p' hp' =>
      split
      · exact ⟨t, ht, rfl, rfl, rfl, rfl⟩
      · next hpe =>
        split
        · next exist hfind =>
          split
          · next m' hm' =>
            rw [hm] at hm'
            have hmm : m = m' := Option.some.inj hm'
            subst hmm
            exact ih ⟨pushOutgoing s.tracks m exist,
                setStrAt s.nextTracks exist (some p'), s.mergedIdx, s.k + 1, s.fti⟩ m
              { t with outgoing := t.outgoing ++ [exist] } hm
              (pushOutgoing_get?_self _ _ _ _ ht)
          · next hm' =>
            rw [hm] at hm'
            exact absurd hm' (by simp)
        · split
          · next m' hm' =>
            rw [hm] at hm'
            have hmm : m = m' := Option.some.inj hm'
            subst hmm
            exact ih ⟨pushOutgoing s.tracks m (freeIdx s.nextTracks),
                setStrAt s.nextTracks (freeIdx s.nextTracks) (some p'), s.mergedIdx,
                s.k + 1, s.fti⟩ m
              { t with outgoing := t.outgoing ++ [freeIdx s.nextTracks] } hm
              (pushOutgoing_get?_self _ _ _ _ ht)
          · next hm' =>
            rw [hm] at hm'
            exact absurd hm' (by simp)

/-- If every (non-empty) parent rejoins an existing lane and no merged
track exists, the `while` loop leaves the tracks row untouched: no track
is created for the commit. -/
theorem runWhile_allmatch (parents : List String) (current : List (Option String)) :
    ∀ (fuel : Nat) (s : RowState),
      s.mergedIdx = none →
      s.nextTracks = current.map jsOrNull →
      (∀ q ∈ parents, q.isEmpty = false → ∃ e, current.findIdx? (· = some q) = some e) →
      (runWhile parents current fuel s).tracks = s.tracks := by
  intro fuel
  induction fuel with
  | zero => intro s _ _ _; rfl
  | succ f ih =>
    intro s hm hnx hall
    cases hk : parents.get? s.k with
    | none => rw [runWhile_stop parents current f s hk]
    | some q =>
      cases hqe : q.isEmpty with
      | true => rw [runWhile_stop_empty parents current f s q hk hqe]
      | false =>
        have hqmem : q ∈ parents := List.get?_mem hk
        obtain ⟨e, he⟩ := hall q hqmem hqe
        rw [runWhile_step_matched parents current f s q hm hk hqe ⟨e, he⟩ hnx]
        exact ih { s with k := s.k + 1 } hm hnx hall

/-- C7 (amended): the engine is seeded with `[headCommitIdentifier]`
(when a head ref with a non-empty identifier exists); when a processed
commit matches no lane, its own Track — `active = true` with empty
`incoming` — is created only when some parent matches no open lane: any
earlier parents that rejoin existing lanes merely re-confirm those
slots, and the Track is then created at the first free column of the
lane vector (the lowest `null` slot, else a fresh column at the end),
which is column 0 only when column 0 is free; if every processed parent
rejoins an existing lane (or the commit has none), no Track is created
for the commit at all: every track of the row stays inactive. -/
theorem seed_and_new_lane (st : LaneState) (c : Commit) :
    (∀ hd : String, hd.isEmpty = false → initialLaneState (some hd) = ⟨true, [some hd]⟩) ∧
    (∀ (pre post : List String) (p : String),
      matchesNone c.hash st.currentTracks →
      c.parents = pre ++ p :: post →
      (∀ q ∈ pre, q.isEmpty = false ∧ ∃ e, st.currentTracks.findIdx? (· = some q) = some e) →
      p.isEmpty = false →
      st.currentTracks.findIdx? (· = some p) = none →
      ∃ t, (stepCommit st c).1.get? (freeIdx (st.currentTracks.map jsOrNull)) =
          some (some t) ∧ t.active = true ∧ t.incomming = [] ∧
          t.depth = freeIdx (st.currentTracks.map jsOrNull)) ∧
    (matchesNone c.hash st.currentTracks →
      (∀ q ∈ c.parents, q.isEmpty = false →
        ∃ e, st.currentTracks.findIdx? (· = some q) = some e) →
      ∀ j t, (stepCommit st c).1.get? j = some (some t) → t.active = false) := by
  refine ⟨?_, ?_, ?_⟩
  · intro hd hhd
    unfold initialLaneState jsOrNull
    rw [if_pos (truthy_some_of hd hhd)]
  · intro pre post p hnm hsplit hpre hp hpn
    obtain ⟨h1, h2, h3, _⟩ := runFor_nomatch c.hash c.parents st.currentTracks
      ⟨[], [], none, 0, st.fti⟩ hnm
    have h1' : (runFor c.hash c.parents st.currentTracks
        ⟨[], [], none, 0, st.fti⟩).mergedIdx = none := by simpa using h1
    have h2' : (runFor c.hash c.parents st.currentTracks
        ⟨[], [], none, 0, st.fti⟩).k = 0 := by simpa using h2
    have h3' : (runFor c.hash c.parents st.currentTracks
        ⟨[], [], none, 0, st.fti⟩).nextTracks = st.currentTracks.map jsOrNull := by
      simpa using h3
    have hfst : (stepCommit st c).1 =
        (runWhile c.parents st.currentTracks (c.parents.length + 1)
          (runFor c.hash c.parents st.currentTracks ⟨[], [], none, 0, st.fti⟩)).tracks := rfl
    rw [hfst]
    set s1 := runFor c.hash c.parents st.currentTracks ⟨[], [], none, 0, st.fti⟩ with hs1
    have hfuel : c.parents.length + 1 = (post.length + 2) + pre.length := by
      rw [hsplit]
      simp
      omega
    rw [hfuel]
    have hpos : ∀ i q, pre.get? i = some q → c.parents.get? (s1.k + i) = some q := by
      intro i q hq
      have hi : i < pre.length := (List.get?_eq_some.1 hq).1
      rw [h2', Nat.zero_add, hsplit, List.get?_append hi, hq]
    rw [runWhile_skip_matched c.parents st.currentTracks pre (post.length + 2) s1
      h1' h3' hpos hpre]
    have hkp : c.parents.get? (({ s1 with k := s1.k + pre.length } : RowState).k) =
        some p := by
      show c.parents.get? (s1.k + pre.length) = some p
      rw [h2', Nat.zero_add, hsplit, List.get?_append_right (le_refl _)]
      simp
    rw [runWhile_step_new c.parents st.currentTracks (post.length + 1) _ p hkp hp hpn
      (by simpa using h1')]
    have hidx : freeIdx ({ s1 with k := s1.k + pre.length } : RowState).nextTracks =
        freeIdx (st.currentTracks.map jsOrNull) := by
      show freeIdx s1.nextTracks = _
      rw [h3']
    rw [hidx]
    obtain ⟨t', htr, hact, hinc, hdep, _⟩ := runWhile_preserves_merged c.parents
      st.currentTracks (post.length + 1)
      ⟨setTrackAt ({ s1 with k := s1.k + pre.length } : RowState).tracks
          (freeIdx (st.currentTracks.map jsOrNull))
          ⟨2, freeIdx (st.currentTracks.map jsOrNull), [],
           [freeIdx (st.currentTracks.map jsOrNull)], true⟩,
        setStrAt ({ s1 with k := s1.k + pre.length } : RowState).nextTracks
          (freeIdx (st.currentTracks.map jsOrNull)) (some p),
        some (freeIdx (st.currentTracks.map jsOrNull)),
        ({ s1 with k := s1.k + pre.length } : RowState).k + 1,
        ({ s1 with k := s1.k + pre.length } : RowState).fti⟩
      (freeIdx (st.currentTracks.map jsOrNull))
      ⟨2, freeIdx (st.currentTracks.map jsOrNull), [],
       [freeIdx (st.currentTracks.map jsOrNull)], true⟩
      rfl (setTrackAt_get?_self _ _ _)
    exact ⟨t', htr, by rw [hact], by rw [hinc], by rw [hdep]⟩
  · intro hnm hall j t hg
    obtain ⟨h1, _, h3, _⟩ := runFor_nomatch c.hash c.parents st.currentTracks
      ⟨[], [], none, 0, st.fti⟩ hnm
    have h1' : (runFor c.hash c.parents st.currentTracks
        ⟨[], [], none, 0, st.fti⟩).mergedIdx = none := by simpa using h1
    have h3' : (runFor c.hash c.parents st.currentTracks
        ⟨[], [], none, 0, st.fti⟩).nextTracks = st.currentTracks.map jsOrNull := by
      simpa using h3
    have hfi := runFor_inv c.hash c.parents st.fti st.currentTracks [] _
      (forInv_init c.hash st.fti)
    have hok := hfi.ok
    rw [h1'] at hok
    have hfst : (stepCommit st c).1 =
        (runWhile c.parents st.currentTracks (c.parents.length + 1)
          (runFor c.hash c.parents st.currentTracks ⟨[], [], none, 0, st.fti⟩)).tracks := rfl
    rw [hfst, runWhile_allmatch c.parents st.currentTracks (c.parents.length + 1) _
      h1' h3' hall] at hg
    exact hok j t hg


/-- Witness for the amended C7: the one-parent commit lands its active
track at the first free column (column 1, past the open seed lane), and
a commit whose only parent rejoins the seed lane creates no active
track. -/
theorem seed_and_new_lane_witness :
    (∃ t, (stepCommit ⟨false, [some "a"]⟩ ⟨"x", ["y"]⟩).1.get?
        (freeIdx (([some "a"] : List (Option String)).map jsOrNull)) = some (some t) ∧
        t.active = true ∧ t.incomming = [] ∧
        t.depth = freeIdx (([some "a"] : List (Option String)).map jsOrNull)) ∧
    (∀ j t, (stepCommit ⟨true, [some "Z"]⟩ ⟨"x", ["Z"]⟩).1.get? j = some (some t) →
        t.active = false) :=
  ⟨(seed_and_new_lane ⟨false, [some "a"]⟩ ⟨"x", ["y"]⟩).2.1 [] [] "y"
      (by unfold matchesNone; decide) rfl (by simp) (by decide) (by decide),
   (seed_and_new_lane ⟨true, [some "Z"]⟩ ⟨"x", ["Z"]⟩).2.2
      (by unfold matchesNone; decide)
      (by
        intro q hq _
        have hqz : q = "Z" := by simpa using hq
        subst hqz
        exact ⟨0, by decide⟩)⟩

end GitTm
